import Mathlib

/-!
Verification of the quaid ingest-to-search data plane against its
natural-language specification.

The definitions below are a shallow embedding of the Rust sources in
`quaid-core`: message content and its serde JSON form
(`providers/mod.rs`), the parquet conversation writer and reader
(`storage/parquet.rs`), the embeddings store (`storage/embeddings.rs`),
the embeddings compactor (`storage/compactor.rs`), the DuckDB query layer
(`storage/duckdb.rs`), the UTF-8 chunker (`embeddings/chunker.rs`) and
the mock embedding model (`embeddings/model.rs`).

Modelling conventions:
 - Rust `String` data is modelled as Lean `String` or `List Char`;
   byte indices are taken with respect to the UTF-8 sizes of the
   characters (`Char.utf8Size`), mirroring Rust `&str` byte offsets.
 - `f32` arithmetic is modelled over `ℚ` (or `ℝ` where a square root is
   required); spec tolerances such as the embedding-norm window
   [0.99, 1.01] absorb the floating-point error this abstracts away.
 - Filesystem state is a record of file paths (segment lists) with their
   parquet row contents plus a set of directories; `std::fs` calls become
   pure state transitions.
 - Fallible code returns `Option` or `Except`; a Rust panic is `none`.
-/

set_option maxHeartbeats 2000000
set_option maxRecDepth 8000

namespace Quaid

/-! ## JSON trees (the image of serde_json values)

The parquet column `msg_content_json` holds the compact serde_json
serialization of a `MessageContent` value. serde printing and parsing are
mutually inverse between compact strings and trees, so the model stores
the parsed tree and performs the decode step of `serde_json::from_str`
directly on trees; `printJson` below is the compact printer used where
the code calls `to_string()` on the raw JSON. -/

inductive Json where
  | str (s : String)
  | null
  | arr (elems : List Json)
  | obj (fields : List (String × Json))

/-- serde_json string escaping: quote, backslash and control characters. -/
def escapeJsonChar (c : Char) : String :=
  if c = '"' then "\\\""
  else if c = '\\' then "\\\\"
  else if c = '\n' then "\\n"
  else if c = '\r' then "\\r"
  else if c = '\t' then "\\t"
  else if c.val < 32 then "\\u00" ++ String.mk [Nat.digitChar (c.toNat / 16), Nat.digitChar (c.toNat % 16)]
  else String.singleton c

/-- serde_json string literal printer. -/
def printJsonString (s : String) : String :=
  "\"" ++ String.join (s.data.map escapeJsonChar) ++ "\""

mutual
/-- Compact printer for JSON trees, as serde_json `to_string` emits them. -/
def printJson : Json → String
  | .str s => printJsonString s
  | .null => "null"
  | .arr elems => "[" ++ printJsonList elems ++ "]"
  | .obj fields => "\x7b" ++ printJsonFields fields ++ "\x7d"

def printJsonList : List Json → String
  | [] => ""
  | [j] => printJson j
  | j :: rest => printJson j ++ "," ++ printJsonList rest

def printJsonFields : List (String × Json) → String
  | [] => ""
  | [(k, j)] => printJsonString k ++ ":" ++ printJson j
  | (k, j) :: rest => printJsonString k ++ ":" ++ printJson j ++ "," ++ printJsonFields rest
end

/-- First value of a field in a JSON object field list (serde lookup). -/
def jsonLookup (fields : List (String × Json)) (key : String) : Option Json :=
  (fields.find? (fun f => f.1 = key)).map (fun f => f.2)

/-! ## Message content (providers/mod.rs)

`MessageContent` is the tagged variant of message bodies; serde derives
an internally tagged representation with tag field "type" in snake case. -/

inductive Role where
  | user
  | assistant
  | system
  | tool
deriving DecidableEq

inductive MessageContent where
  | Text (text : String)
  | Code (language : String) (code : String)
  | Image (url : String) (alt : Option String)
  | Audio (url : String) (transcript : Option String)
  | Mixed (parts : List MessageContent)

mutual
/-- Decidable equality for the nested inductive of content variants. -/
def MessageContent.beq : MessageContent → MessageContent → Bool
  | .Text a, .Text b => a == b
  | .Code l a, .Code m b => l == m && a == b
  | .Image u a, .Image v b => u == v && a == b
  | .Audio u a, .Audio v b => u == v && a == b
  | .Mixed ps, .Mixed qs => MessageContent.beqList ps qs
  | _, _ => false

/-- Pointwise equality test for lists of content variants. -/
def MessageContent.beqList : List MessageContent → List MessageContent → Bool
  | [], [] => true
  | p :: ps, q :: qs => MessageContent.beq p q && MessageContent.beqList ps qs
  | _, _ => false
end

mutual
theorem MessageContent.beq_refl : ∀ c : MessageContent, MessageContent.beq c c = true
  | .Text _ => by simp [MessageContent.beq]
  | .Code _ _ => by simp [MessageContent.beq]
  | .Image _ _ => by simp [MessageContent.beq]
  | .Audio _ _ => by simp [MessageContent.beq]
  | .Mixed ps => MessageContent.beqList_refl ps

theorem MessageContent.beqList_refl : ∀ ps : List MessageContent,
    MessageContent.beqList ps ps = true
  | [] => rfl
  | p :: ps => by
      simp only [MessageContent.beqList, Bool.and_eq_true]
      exact ⟨MessageContent.beq_refl p, MessageContent.beqList_refl ps⟩
end

mutual
theorem MessageContent.eq_of_beq : ∀ a b : MessageContent, MessageContent.beq a b = true → a = b
  | .Text _, .Text _, h => by
      simp only [MessageContent.beq, beq_iff_eq] at h; rw [h]
  | .Code _ _, .Code _ _, h => by
      simp only [MessageContent.beq, Bool.and_eq_true, beq_iff_eq] at h
      rw [h.1, h.2]
  | .Image _ _, .Image _ _, h => by
      simp only [MessageContent.beq, Bool.and_eq_true, beq_iff_eq] at h
      rw [h.1, h.2]
  | .Audio _ _, .Audio _ _, h => by
      simp only [MessageContent.beq, Bool.and_eq_true, beq_iff_eq] at h
      rw [h.1, h.2]
  | .Mixed ps, .Mixed qs, h => by
      rw [MessageContent.eqList_of_beqList ps qs h]
  | .Text _, .Code _ _, h => by simp [MessageContent.beq] at h
  | .Text _, .Image _ _, h => by simp [MessageContent.beq] at h
  | .Text _, .Audio _ _, h => by simp [MessageContent.beq] at h
  | .Text _, .Mixed _, h => by simp [MessageContent.beq] at h
  | .Code _ _, .Text _, h => by simp [MessageContent.beq] at h
  | .Code _ _, .Image _ _, h => by simp [MessageContent.beq] at h
  | .Code _ _, .Audio _ _, h => by simp [MessageContent.beq] at h
  | .Code _ _, .Mixed _, h => by simp [MessageContent.beq] at h
  | .Image _ _, .Text _, h => by simp [MessageContent.beq] at h
  | .Image _ _, .Code _ _, h => by simp [MessageContent.beq] at h
  | .Image _ _, .Audio _ _, h => by simp [MessageContent.beq] at h
  | .Image _ _, .Mixed _, h => by simp [MessageContent.beq] at h
  | .Audio _ _, .Text _, h => by simp [MessageContent.beq] at h
  | .Audio _ _, .Code _ _, h => by simp [MessageContent.beq] at h
  | .Audio _ _, .Image _ _, h => by simp [MessageContent.beq] at h
  | .Audio _ _, .Mixed _, h => by simp [MessageContent.beq] at h
  | .Mixed _, .Text _, h => by simp [MessageContent.beq] at h
  | .Mixed _, .Code _ _, h => by simp [MessageContent.beq] at h
  | .Mixed _, .Image _ _, h => by simp [MessageContent.beq] at h
  | .Mixed _, .Audio _ _, h => by simp [MessageContent.beq] at h

theorem MessageContent.eqList_of_beqList : ∀ ps qs : List MessageContent,
    MessageContent.beqList ps qs = true → ps = qs
  | [], [], _ => rfl
  | [], _ :: _, h => by simp [MessageContent.beqList] at h
  | _ :: _, [], h => by simp [MessageContent.beqList] at h
  | p :: ps, q :: qs, h => by
      simp only [MessageContent.beqList, Bool.and_eq_true] at h
      rw [MessageContent.eq_of_beq p q h.1, MessageContent.eqList_of_beqList ps qs h.2]
end

instance : DecidableEq MessageContent := fun a b =>
  if h : MessageContent.beq a b = true then
    isTrue (MessageContent.eq_of_beq a b h)
  else
    isFalse (fun he => h (he ▸ MessageContent.beq_refl a))

/-- serde encoding of an optional string: None becomes JSON null. -/
def encodeOptStr : Option String → Json
  | none => Json.null
  | some s => Json.str s

mutual
/-- serde_json serialization of MessageContent: internally tagged with
field "type" and snake_case variant names (spec section 6.3). -/
def encodeContent : MessageContent → Json
  | .Text text => .obj [("type", .str "text"), ("text", .str text)]
  | .Code language code =>
      .obj [("type", .str "code"), ("language", .str language), ("code", .str code)]
  | .Image url alt =>
      .obj [("type", .str "image"), ("url", .str url), ("alt", encodeOptStr alt)]
  | .Audio url transcript =>
      .obj [("type", .str "audio"), ("url", .str url), ("transcript", encodeOptStr transcript)]
  | .Mixed parts => .obj [("type", .str "mixed"), ("parts", .arr (encodeContentList parts))]

def encodeContentList : List MessageContent → List Json
  | [] => []
  | c :: rest => encodeContent c :: encodeContentList rest
end

/-- serde decoding of a string field. -/
def decodeStr : Option Json → Option String
  | some (.str s) => some s
  | _ => none

/-- serde decoding of an optional string field: null or missing is None. -/
def decodeOptStr : Option Json → Option (Option String)
  | none => some none
  | some .null => some none
  | some (.str s) => some (some s)
  | _ => none

mutual
/-- serde_json deserialization of MessageContent from its tree form;
`none` is a serde parse error. The mixed case decodes the first field
named "parts" (the serde field lookup, inlined as a structural scan). -/
def decodeContent : Json → Option MessageContent
  | .obj fields =>
      match decodeStr (jsonLookup fields "type") with
      | some "text" =>
          (decodeStr (jsonLookup fields "text")).map .Text
      | some "code" =>
          match decodeStr (jsonLookup fields "language"), decodeStr (jsonLookup fields "code") with
          | some l, some c => some (.Code l c)
          | _, _ => none
      | some "image" =>
          match decodeStr (jsonLookup fields "url"), decodeOptStr (jsonLookup fields "alt") with
          | some u, some a => some (.Image u a)
          | _, _ => none
      | some "audio" =>
          match decodeStr (jsonLookup fields "url"),
                decodeOptStr (jsonLookup fields "transcript") with
          | some u, some t => some (.Audio u t)
          | _, _ => none
      | some "mixed" => (decodePartsField fields).map .Mixed
      | _ => none
  | _ => none

/-- Scan for the first field named "parts" holding an array and decode it. -/
def decodePartsField : List (String × Json) → Option (List MessageContent)
  | [] => none
  | (k, v) :: rest =>
      if k = "parts" then
        match v with
        | .arr elems => decodeContentList elems
        | _ => none
      else decodePartsField rest

def decodeContentList : List Json → Option (List MessageContent)
  | [] => some []
  | j :: rest =>
      match decodeContent j, decodeContentList rest with
      | some c, some cs => some (c :: cs)
      | _, _ => none
end

theorem decode_encodeOptStr (o : Option String) : decodeOptStr (some (encodeOptStr o)) = some o := by
  cases o <;> rfl

mutual
theorem decode_encodeContent : ∀ c : MessageContent, decodeContent (encodeContent c) = some c
  | .Text text => rfl
  | .Code language code => rfl
  | .Image url alt => by
      cases alt <;> rfl
  | .Audio url transcript => by
      cases transcript <;> rfl
  | .Mixed parts => by
      simp [encodeContent, decodeContent, decodePartsField, jsonLookup, decodeStr,
        decode_encodeContentList parts]

theorem decode_encodeContentList :
    ∀ cs : List MessageContent, decodeContentList (encodeContentList cs) = some cs
  | [] => rfl
  | c :: rest => by
      simp only [encodeContentList, decodeContentList]
      rw [decode_encodeContent c, decode_encodeContentList rest]
end

/-! ## Conversations and messages (providers/mod.rs)

Timestamps are UTC instants at millisecond precision, modelled as the
integer of milliseconds (`timestamp_millis` and
`DateTime::from_timestamp_millis` are mutually inverse on that range). -/

structure Conversation where
  id : String
  provider_id : String
  title : String
  created_at : Int
  updated_at : Int
  model : Option String
  project_id : Option String
  project_name : Option String
  is_archived : Bool
deriving DecidableEq

structure Message where
  id : String
  conversation_id : String
  parent_id : Option String
  role : Role
  content : MessageContent
  created_at : Option Int
  model : Option String
deriving DecidableEq

/-- The role column string written by parquet.rs. -/
def roleStr : Role → String
  | .user => "user"
  | .assistant => "assistant"
  | .system => "system"
  | .tool => "tool"

/-- The reverse role mapping of the readers; unknown strings become user. -/
def parseRole (s : String) : Role :=
  if s = "user" then .user
  else if s = "assistant" then .assistant
  else if s = "system" then .system
  else if s = "tool" then .tool
  else .user

/-- The msg_content_type column string written by parquet.rs. -/
def contentTypeStr : MessageContent → String
  | .Text _ => "text"
  | .Code _ _ => "code"
  | .Image _ _ => "image"
  | .Audio _ _ => "audio"
  | .Mixed _ => "mixed"

/-! ## Parquet conversation file (storage/parquet.rs)

One file per (provider, conversation id); each row denormalizes the
conversation columns next to one message, in the schema of spec section
6.1. The `msg_content_json` column is the serde_json serialization of
the content; it is stored here as its parsed tree (see the note on
`Json`); the placeholder row stores the empty string, which no reader
ever decodes because placeholder rows are skipped first, and is
represented by the tree of the empty string. -/

structure ConvRow where
  conv_id : String
  conv_provider_id : String
  conv_title : String
  conv_created_at : Int
  conv_updated_at : Int
  conv_model : Option String
  conv_project_id : Option String
  conv_project_name : Option String
  conv_is_archived : Bool
  msg_id : String
  msg_parent_id : Option String
  msg_role : String
  msg_content_type : String
  msg_content_json : Json
  msg_created_at : Option Int
  msg_model : Option String

/-- The row of one message (ParquetStore::write_conversation, message arm). -/
def messageRow (conv : Conversation) (m : Message) : ConvRow where
  conv_id := conv.id
  conv_provider_id := conv.provider_id
  conv_title := conv.title
  conv_created_at := conv.created_at
  conv_updated_at := conv.updated_at
  conv_model := conv.model
  conv_project_id := conv.project_id
  conv_project_name := conv.project_name
  conv_is_archived := conv.is_archived
  msg_id := m.id
  msg_parent_id := m.parent_id
  msg_role := roleStr m.role
  msg_content_type := contentTypeStr m.content
  msg_content_json := encodeContent m.content
  msg_created_at := m.created_at
  msg_model := m.model

/-- The placeholder row written when a conversation has no messages:
conversation columns populated, message columns empty or null. -/
def placeholderRow (conv : Conversation) : ConvRow where
  conv_id := conv.id
  conv_provider_id := conv.provider_id
  conv_title := conv.title
  conv_created_at := conv.created_at
  conv_updated_at := conv.updated_at
  conv_model := conv.model
  conv_project_id := conv.project_id
  conv_project_name := conv.project_name
  conv_is_archived := conv.is_archived
  msg_id := ""
  msg_parent_id := none
  msg_role := ""
  msg_content_type := ""
  msg_content_json := Json.str ""
  msg_created_at := none
  msg_model := none

/-- ParquetStore::write_conversation as the rows of the produced file. -/
def write_conversation (conv : Conversation) (messages : List Message) : List ConvRow :=
  if messages.isEmpty then [placeholderRow conv]
  else messages.map (messageRow conv)

/-- The conversation ParquetStore::read_conversation builds from row 0. -/
def rowConversation (r : ConvRow) : Conversation where
  id := r.conv_id
  provider_id := r.conv_provider_id
  title := r.conv_title
  created_at := r.conv_created_at
  updated_at := r.conv_updated_at
  model := r.conv_model
  project_id := r.conv_project_id
  project_name := r.conv_project_name
  is_archived := r.conv_is_archived

/-- The message ParquetStore::read_conversation builds from a non-placeholder
row: the conversation_id field is stamped with the query argument, the role
falls back to user, and a content JSON that does not decode falls back to a
Text variant holding the raw column string. -/
def rowMessage (conversation_id : String) (r : ConvRow) : Message where
  id := r.msg_id
  conversation_id := conversation_id
  parent_id := r.msg_parent_id
  role := parseRole r.msg_role
  content := (decodeContent r.msg_content_json).getD (.Text (printJson r.msg_content_json))
  created_at := r.msg_created_at
  model := r.msg_model

/-- ParquetStore::read_conversation over the rows of the file: the
conversation comes from the first row, the messages from every row whose
msg_id is nonempty, in row order. -/
def read_conversation (rows : List ConvRow) (conversation_id : String) :
    Option (Conversation × List Message) :=
  match rows with
  | [] => none
  | r0 :: _ =>
      some (rowConversation r0,
        (rows.filter (fun r => r.msg_id ≠ "")).map (rowMessage conversation_id))

theorem rowConversation_messageRow (conv : Conversation) (m : Message) :
    rowConversation (messageRow conv m) = conv := rfl

theorem rowConversation_placeholderRow (conv : Conversation) :
    rowConversation (placeholderRow conv) = conv := rfl

theorem parseRole_roleStr (r : Role) : parseRole (roleStr r) = r := by
  cases r <;> rfl

theorem rowMessage_messageRow (conv : Conversation) (m : Message)
    (hc : m.conversation_id = cid) : rowMessage cid (messageRow conv m) = m := by
  simp only [rowMessage, messageRow, parseRole_roleStr, decode_encodeContent, Option.getD_some]
  cases m
  simp_all

/-- Example conversation for the parquet roundtrip scenarios. -/
def exConv : Conversation :=
  ⟨"c1", "p1", "Title", 1700000000000, 1700000000500, some "gpt-4", none, none, false⟩

/-- A message whose conversation_id differs from the conversation it is
written under. -/
def exMsgOther : Message :=
  ⟨"m1", "other-conv", none, .user, .Text "hi", some 1700000000100, none⟩

/-- A message whose id is the empty string, colliding with the placeholder
convention. -/
def exMsgEmptyId : Message :=
  ⟨"", "c1", none, .user, .Text "hi", some 1700000000100, none⟩

/-- A well-formed message list exercising several content variants. -/
def exMsgs : List Message :=
  [⟨"m1", "c1", none, .user, .Text "Hi", some 1700000000100, none⟩,
   ⟨"m2", "c1", some "m1", .assistant, .Code "rust" "fn main() -> u8", some 1700000000200,
     some "gpt-4"⟩,
   ⟨"m3", "c1", some "m2", .tool, .Mixed [.Text "part", .Image "u" none, .Audio "v" (some "t")],
     none, none⟩]

/-- C4, counterexample: the write-read roundtrip is not the identity for
every message list. A message carrying a conversation_id different from the
conversation it is filed under is read back with the queried id stamped on
it, and a message whose id is the empty string is mistaken for a placeholder
row and dropped. -/
theorem C4_roundtrip_counterexample :
    read_conversation (write_conversation exConv [exMsgOther]) "c1" ≠
      some (exConv, [exMsgOther]) ∧
    read_conversation (write_conversation exConv [exMsgEmptyId]) "c1" ≠
      some (exConv, [exMsgEmptyId]) := by
  decide

/-- C4 (amended): for every conversation c and message list msgs whose
messages have nonempty ids and carry the id of c, reading back a written
conversation returns exactly (c, msgs) with order preserved; when msgs is
empty a single placeholder row with empty msg_id is written and the reader
skips it, returning (c, []). -/
theorem C4_roundtrip (conv : Conversation) (messages : List Message)
    (h : ∀ m ∈ messages, m.id ≠ "" ∧ m.conversation_id = conv.id) :
    read_conversation (write_conversation conv messages) conv.id =
      some (conv, messages) := by
  cases messages with
  | nil => rfl
  | cons m rest =>
      simp only [write_conversation, List.isEmpty_cons, List.map_cons, read_conversation,
        rowConversation_messageRow, Option.some.injEq, Prod.mk.injEq, true_and,
        Bool.false_eq_true, if_false]
      have hfilter :
          ((messageRow conv m :: rest.map (messageRow conv)).filter
            (fun r => r.msg_id ≠ "")) = messageRow conv m :: rest.map (messageRow conv) := by
        rw [List.filter_eq_self]
        intro r hr
        rcases List.mem_cons.mp hr with h1 | h1
        · subst h1
          exact decide_eq_true ((h m (List.mem_cons_self m rest)).1)
        · obtain ⟨m2, hm2, rfl⟩ := List.mem_map.mp h1
          exact decide_eq_true ((h m2 (List.mem_cons_of_mem m hm2)).1)
      rw [hfilter]
      show (messageRow conv m :: rest.map (messageRow conv)).map (rowMessage conv.id) = m :: rest
      simp only [List.map_cons, List.map_map]
      rw [rowMessage_messageRow conv m (h m (List.mem_cons_self m rest)).2]
      congr 1
      · have : ∀ m2 ∈ rest, (rowMessage conv.id ∘ messageRow conv) m2 = m2 := by
          intro m2 hm2
          exact rowMessage_messageRow conv m2 (h m2 (List.mem_cons_of_mem m hm2)).2
        calc rest.map (rowMessage conv.id ∘ messageRow conv)
            = rest.map id := List.map_congr_left this
          _ = rest := List.map_id rest

/-- C4, witness: the roundtrip theorem applied to a concrete conversation
with three messages across several content variants. -/
theorem C4_roundtrip_witness :
    read_conversation (write_conversation exConv exMsgs) "c1" = some (exConv, exMsgs) :=
  C4_roundtrip exConv exMsgs (by decide)

/-! ## UTF-8 byte geometry (embeddings/chunker.rs helpers)

A Rust `&str` is modelled as its character list; byte indices are taken
against `Char.utf8Size`. Slicing helpers keep the characters whose byte
spans fall inside the requested range; the chunker only ever slices at
character boundaries with a forward range, where this coincides with
Rust slicing. -/

/-- Rust str::len, the UTF-8 byte length. -/
def byteLen : List Char → Nat
  | [] => 0
  | c :: cs => c.utf8Size + byteLen cs

/-- MessageChunker::floor_char_boundary: the nearest character boundary at
or before the byte index; indices past the end clamp to the length. -/
def floorCharBoundary : List Char → Nat → Nat
  | [], _ => 0
  | c :: cs, i =>
      if c.utf8Size ≤ i then c.utf8Size + floorCharBoundary cs (i - c.utf8Size) else 0

/-- MessageChunker::ceil_char_boundary: the nearest character boundary at
or after the byte index; indices past the end clamp to the length. -/
def ceilCharBoundary : List Char → Nat → Nat
  | [], _ => 0
  | c :: cs, i => if i = 0 then 0 else c.utf8Size + ceilCharBoundary cs (i - c.utf8Size)

/-- Drop the characters covering the first i bytes. -/
def dropBytes : List Char → Nat → List Char
  | [], _ => []
  | c :: cs, i => if i = 0 then c :: cs else dropBytes cs (i - c.utf8Size)

/-- Keep the characters fully inside the first i bytes. -/
def takeBytes : List Char → Nat → List Char
  | [], _ => []
  | c :: cs, i => if c.utf8Size ≤ i then c :: takeBytes cs (i - c.utf8Size) else []

/-- A byte-range slice text[s..e] at character granularity. -/
def sliceBytes (cs : List Char) (s e : Nat) : List Char :=
  takeBytes (dropBytes cs s) (e - s)

/-- The White_Space characters Rust str::trim removes. -/
def isRustWhitespace (c : Char) : Bool :=
  c = ' ' || c = '\t' || c = '\n' || c = '\x0b' || c = '\x0c' || c = '\r' ||
  c = '\u0085' || c = ' ' || c = ' ' ||
  (' ' ≤ c && c ≤ ' ') ||
  c = ' ' || c = ' ' || c = ' ' || c = ' ' || c = '　'

/-- Rust str::trim. -/
def rustTrim (cs : List Char) : List Char :=
  ((cs.dropWhile isRustWhitespace).reverse.dropWhile isRustWhitespace).reverse

/-- Rust str::rfind of a two-character pattern: the byte offset of the
rightmost occurrence. -/
def rfindPair (a b : Char) : List Char → Option Nat
  | [] => none
  | c :: cs =>
      match rfindPair a b cs with
      | some k => some (c.utf8Size + k)
      | none => if c = a ∧ cs.head? = some b then some 0 else none

/-- Rust str::rfind of a single character: the byte offset of the rightmost
occurrence. -/
def rfindChar (a : Char) : List Char → Option Nat
  | [] => none
  | c :: cs =>
      match rfindChar a cs with
      | some k => some (c.utf8Size + k)
      | none => if c = a then some 0 else none

/-- Rust str::char_indices: each character with its byte offset. -/
def charIndices : List Char → List (Nat × Char)
  | [] => []
  | c :: cs => (0, c) :: (charIndices cs).map (fun p => (c.utf8Size + p.1, p.2))

/-! ## The chunker (embeddings/chunker.rs) -/

structure ChunkerConfig where
  max_chunk_chars : Nat
  overlap_chars : Nat

/-- The sentence-terminator loop of MessageChunker::find_break_point: walk
the search window characters in reverse; at each `.`, `!` or `?` return the
following byte index when it reaches max_end or the next character of the
full text is a space or newline; otherwise keep scanning. -/
def sentenceScan (text : List Char) (searchStart maxEnd : Nat) :
    List (Nat × Char) → Option Nat
  | [] => none
  | (i, c) :: rest =>
      if c = '.' ∨ c = '!' ∨ c = '?' then
        if maxEnd ≤ searchStart + i + c.utf8Size then some (searchStart + i + c.utf8Size)
        else
          match (dropBytes text (searchStart + i + c.utf8Size)).head? with
          | some nc =>
              if nc = ' ' ∨ nc = '\n' then some (searchStart + i + c.utf8Size)
              else sentenceScan text searchStart maxEnd rest
          | none => sentenceScan text searchStart maxEnd rest
      else sentenceScan text searchStart maxEnd rest

/-- The break preference order of find_break_point applied to the search
window [searchStart, maxEnd): paragraph break, sentence terminator followed
by space or newline, line break, word break, else max_end. -/
def breakCandidate (text : List Char) (searchStart maxEnd : Nat)
    (searchText : List Char) : Nat :=
  match rfindPair '\n' '\n' searchText with
  | some pos => searchStart + pos + 2
  | none =>
      match sentenceScan text searchStart maxEnd (charIndices searchText).reverse with
      | some n => n
      | none =>
          match rfindChar '\n' searchText with
          | some pos => searchStart + pos + 1
          | none =>
              match rfindChar ' ' searchText with
              | some pos => searchStart + pos + 1
              | none => maxEnd

/-- MessageChunker::find_break_point. -/
def findBreakPoint (cfg : ChunkerConfig) (text : List Char) (maxEnd0 : Nat) : Nat :=
  let maxEnd := floorCharBoundary text maxEnd0
  let searchStart := ceilCharBoundary text (maxEnd - cfg.overlap_chars)
  breakCandidate text searchStart maxEnd (sliceBytes text searchStart maxEnd)

/-- The window loop of MessageChunker::chunk_text, with explicit fuel:
`none` means the fuel ran out before the loop exited. -/
def chunkLoop (cfg : ChunkerConfig) (text : List Char) :
    Nat → Nat → List (List Char) → Option (List (List Char))
  | 0, _, _ => none
  | fuel + 1, start, chunks =>
      if start < byteLen text then
        let e := floorCharBoundary text (min (start + cfg.max_chunk_chars) (byteLen text))
        let chunkEnd := if e < byteLen text then findBreakPoint cfg text e else e
        let chunk := rustTrim (sliceBytes text start chunkEnd)
        let chunks2 := if chunk.isEmpty then chunks else chunks ++ [chunk]
        if byteLen text ≤ chunkEnd then some chunks2
        else
          let s1 := ceilCharBoundary text (chunkEnd - cfg.overlap_chars)
          let s2 :=
            if s1 ≤ (chunks2.length - 1) * cfg.max_chunk_chars then chunkEnd else s1
          chunkLoop cfg text fuel s2 chunks2
      else some chunks

/-- MessageChunker::chunk_text at a given fuel. -/
def chunkTextFuel (cfg : ChunkerConfig) (text : List Char) (fuel : Nat) :
    Option (List (List Char)) :=
  let t := rustTrim text
  if t.isEmpty then some []
  else if byteLen t ≤ cfg.max_chunk_chars then some [t]
  else chunkLoop cfg t fuel 0 []

/-- MessageChunker::chunk_text with fuel one more than the trimmed byte
length, enough whenever the loop makes byte progress every iteration. -/
def chunk_text (cfg : ChunkerConfig) (text : List Char) : Option (List (List Char)) :=
  chunkTextFuel cfg text (byteLen (rustTrim text) + 1)

/-- The loop of chunk_text exits after finitely many iterations. -/
def ChunkTerminates (cfg : ChunkerConfig) (text : List Char) : Prop :=
  ∃ fuel, (chunkTextFuel cfg text fuel).isSome

/-- A two-character input whose second character is multi-byte. -/
def exTextAE : List Char := ['a', '€']

/-- With max_chunk_chars 1 the window start sticks at byte 1 forever: the
floor boundary of start+1 is again 1 inside the euro sign, the break point
equals the window start, the empty chunk is skipped, and the progress
fallback does not fire because it compares the new start against
(chunks-1) * max_chunk_chars = 0 instead of the previous start. -/
theorem chunkLoop_stuck :
    ∀ fuel, chunkLoop ⟨1, 0⟩ exTextAE fuel 1 [['a']] = none
  | 0 => rfl
  | fuel + 1 => chunkLoop_stuck fuel

theorem chunkTextFuel_stuck : ∀ fuel, chunkTextFuel ⟨1, 0⟩ exTextAE fuel = none
  | 0 => rfl
  | fuel + 1 => chunkLoop_stuck fuel

/-- C5, counterexample: chunk_text is not total over every configuration;
with max_chunk_chars = 1 and overlap_chars = 0 the loop never terminates on
the input "a€". -/
theorem C5_chunk_text_counterexample : ¬ ChunkTerminates ⟨1, 0⟩ exTextAE := by
  rintro ⟨fuel, h⟩
  rw [chunkTextFuel_stuck fuel] at h
  exact Bool.false_ne_true h

theorem floorCharBoundary_le (cs : List Char) : ∀ i, floorCharBoundary cs i ≤ i := by
  induction cs with
  | nil => intro i; simp [floorCharBoundary]
  | cons c cs ih =>
      intro i
      simp only [floorCharBoundary]
      split
      · have := ih (i - c.utf8Size); omega
      · omega

theorem floorCharBoundary_le_byteLen (cs : List Char) :
    ∀ i, floorCharBoundary cs i ≤ byteLen cs := by
  induction cs with
  | nil => intro i; simp [floorCharBoundary, byteLen]
  | cons c cs ih =>
      intro i
      simp only [floorCharBoundary, byteLen]
      split
      · have := ih (i - c.utf8Size); omega
      · omega

theorem le_floorCharBoundary_add_three (cs : List Char) :
    ∀ i, i ≤ byteLen cs → i ≤ floorCharBoundary cs i + 3 := by
  induction cs with
  | nil => intro i h; simp only [byteLen] at h; omega
  | cons c cs ih =>
      intro i h
      simp only [byteLen] at h
      simp only [floorCharBoundary]
      split
      · have := ih (i - c.utf8Size) (by omega); omega
      · have h4 := c.utf8Size_le_four; omega

theorem floorCharBoundary_of_byteLen_le (cs : List Char) :
    ∀ i, byteLen cs ≤ i → floorCharBoundary cs i = byteLen cs := by
  induction cs with
  | nil => intro i _; rfl
  | cons c cs ih =>
      intro i h
      simp only [byteLen] at h
      have hp := c.utf8Size_pos
      simp only [floorCharBoundary, byteLen]
      rw [if_pos (by omega), ih (i - c.utf8Size) (by omega)]

theorem floorCharBoundary_idem (cs : List Char) :
    ∀ i, floorCharBoundary cs (floorCharBoundary cs i) = floorCharBoundary cs i := by
  induction cs with
  | nil => intro i; rfl
  | cons c cs ih =>
      intro i
      simp only [floorCharBoundary]
      split
      · rw [if_pos (by omega)]
        congr 1
        rw [Nat.add_sub_cancel_left]
        exact ih (i - c.utf8Size)
      · rw [if_neg (by have := c.utf8Size_pos; omega)]

theorem ceilCharBoundary_le_byteLen (cs : List Char) :
    ∀ i, ceilCharBoundary cs i ≤ byteLen cs := by
  induction cs with
  | nil => intro i; simp [ceilCharBoundary, byteLen]
  | cons c cs ih =>
      intro i
      simp only [ceilCharBoundary, byteLen]
      split
      · omega
      · have := ih (i - c.utf8Size); omega

theorem le_ceilCharBoundary (cs : List Char) :
    ∀ i, i ≤ byteLen cs → i ≤ ceilCharBoundary cs i := by
  induction cs with
  | nil => intro i h; simp only [byteLen] at h; omega
  | cons c cs ih =>
      intro i h
      simp only [byteLen] at h
      simp only [ceilCharBoundary]
      split
      · omega
      · have := ih (i - c.utf8Size) (by omega); omega

theorem ceilCharBoundary_le_boundary (cs : List Char) :
    ∀ i b, floorCharBoundary cs b = b → i ≤ b → ceilCharBoundary cs i ≤ b := by
  induction cs with
  | nil => intro i b _ _; simp [ceilCharBoundary]
  | cons c cs ih =>
      intro i b hb hib
      simp only [ceilCharBoundary]
      split
      · omega
      · simp only [floorCharBoundary] at hb
        rcases Nat.lt_or_ge b c.utf8Size with hlt | hge
        · rw [if_neg (by omega)] at hb
          omega
        · rw [if_pos hge] at hb
          have hb2 : floorCharBoundary cs (b - c.utf8Size) = b - c.utf8Size := by omega
          have := ih (i - c.utf8Size) (b - c.utf8Size) hb2 (by omega)
          omega

theorem byteLen_takeBytes_le (cs : List Char) : ∀ n, byteLen (takeBytes cs n) ≤ n := by
  induction cs with
  | nil => intro n; simp [takeBytes, byteLen]
  | cons c cs ih =>
      intro n
      simp only [takeBytes]
      split
      · simp only [byteLen]
        have := ih (n - c.utf8Size); omega
      · simp [byteLen]

theorem byteLen_sliceBytes_le (cs : List Char) (s e : Nat) :
    byteLen (sliceBytes cs s e) ≤ e - s :=
  byteLen_takeBytes_le _ _

theorem rfindPair_le (a b : Char) (cs : List Char) :
    ∀ k, rfindPair a b cs = some k → k + a.utf8Size + b.utf8Size ≤ byteLen cs := by
  induction cs with
  | nil => intro k h; simp [rfindPair] at h
  | cons c cs ih =>
      intro k h
      simp only [rfindPair] at h
      split at h
      · rename_i k2 hk2
        cases h
        have := ih k2 hk2
        simp only [byteLen]
        omega
      · split at h
        · rename_i hcond
          cases h
          obtain ⟨rfl, hhd⟩ := hcond
          cases cs with
          | nil => simp at hhd
          | cons c2 cs2 =>
              simp only [List.head?_cons, Option.some.injEq] at hhd
              subst hhd
              simp only [byteLen]
              omega
        · cases h

theorem rfindChar_le (a : Char) (cs : List Char) :
    ∀ k, rfindChar a cs = some k → k + a.utf8Size ≤ byteLen cs := by
  induction cs with
  | nil => intro k h; simp [rfindChar] at h
  | cons c cs ih =>
      intro k h
      simp only [rfindChar] at h
      split at h
      · rename_i k2 hk2
        cases h
        have := ih k2 hk2
        simp only [byteLen]
        omega
      · split at h
        · rename_i hcond
          cases h
          subst hcond
          simp only [byteLen]
          omega
        · cases h

theorem charIndices_le (cs : List Char) :
    ∀ p ∈ charIndices cs, p.1 + p.2.utf8Size ≤ byteLen cs := by
  induction cs with
  | nil => intro p hp; simp [charIndices] at hp
  | cons c cs ih =>
      intro p hp
      simp only [charIndices, List.mem_cons] at hp
      rcases hp with rfl | hp
      · simp only [byteLen]
        have := byteLen cs
        omega
      · obtain ⟨q, hq, rfl⟩ := List.mem_map.mp hp
        have := ih q hq
        simp only [byteLen]
        omega

theorem sentenceScan_bounds (text : List Char) (searchStart maxEnd B : Nat) :
    ∀ L : List (Nat × Char), (∀ p ∈ L, p.1 + p.2.utf8Size ≤ B) →
      ∀ n, sentenceScan text searchStart maxEnd L = some n →
        searchStart ≤ n ∧ n ≤ searchStart + B := by
  intro L
  induction L with
  | nil => intro _ n h; simp [sentenceScan] at h
  | cons p rest ih =>
      intro hL n h
      obtain ⟨i, c⟩ := p
      have hic : i + c.utf8Size ≤ B := hL (i, c) (List.mem_cons_self _ _)
      have hrest : ∀ q ∈ rest, q.1 + q.2.utf8Size ≤ B :=
        fun q hq => hL q (List.mem_cons_of_mem _ hq)
      simp only [sentenceScan] at h
      split at h
      · split at h
        · cases h; omega
        · split at h
          · split at h
            · cases h; omega
            · exact ih hrest n h
          · exact ih hrest n h
      · exact ih hrest n h

theorem breakCandidate_bounds (text : List Char) (searchStart maxEnd : Nat)
    (searchText : List Char) (hsm : searchStart ≤ maxEnd)
    (hb : byteLen searchText ≤ maxEnd - searchStart) :
    searchStart ≤ breakCandidate text searchStart maxEnd searchText ∧
      breakCandidate text searchStart maxEnd searchText ≤ maxEnd := by
  have hn : ('\n').utf8Size = 1 := rfl
  have hs : (' ').utf8Size = 1 := rfl
  unfold breakCandidate
  split
  · rename_i pos hpos
    have := rfindPair_le '\n' '\n' searchText pos hpos
    rw [hn] at this
    omega
  · split
    · rename_i n hn2
      have := sentenceScan_bounds text searchStart maxEnd (byteLen searchText)
        (charIndices searchText).reverse
        (fun p hp => charIndices_le searchText p (List.mem_reverse.mp hp)) n hn2
      omega
    · split
      · rename_i pos hpos
        have := rfindChar_le '\n' searchText pos hpos
        rw [hn] at this
        omega
      · split
        · rename_i pos hpos
          have := rfindChar_le ' ' searchText pos hpos
          rw [hs] at this
          omega
        · omega

theorem findBreakPoint_bounds (cfg : ChunkerConfig) (text : List Char) (e : Nat) :
    ceilCharBoundary text (floorCharBoundary text e - cfg.overlap_chars) ≤
        findBreakPoint cfg text e ∧
      findBreakPoint cfg text e ≤ floorCharBoundary text e := by
  unfold findBreakPoint
  have hidem := floorCharBoundary_idem text e
  have hsm : ceilCharBoundary text (floorCharBoundary text e - cfg.overlap_chars) ≤
      floorCharBoundary text e :=
    ceilCharBoundary_le_boundary text _ _ hidem (by omega)
  exact breakCandidate_bounds text _ _ _ hsm (byteLen_sliceBytes_le text _ _)

theorem chunkLoop_isSome (cfg : ChunkerConfig) (text : List Char)
    (hcfg : 2 * cfg.overlap_chars + 4 ≤ cfg.max_chunk_chars) :
    ∀ fuel start chunks, byteLen text - start < fuel →
      (chunkLoop cfg text fuel start chunks).isSome = true := by
  intro fuel
  induction fuel with
  | zero => intro start chunks h; omega
  | succ fuel ih =>
      intro start chunks h
      rw [chunkLoop]
      split
      case isFalse => simp
      case isTrue hlt =>
        dsimp only
        rcases le_or_lt (byteLen text) (start + cfg.max_chunk_chars) with hA | hB
        · rw [min_eq_right hA, floorCharBoundary_of_byteLen_le text _ le_rfl]
          rw [if_neg (lt_irrefl _), if_pos le_rfl]
          simp
        · rw [min_eq_left (le_of_lt hB)]
          have he_le : floorCharBoundary text (start + cfg.max_chunk_chars) ≤
              start + cfg.max_chunk_chars := floorCharBoundary_le text _
          have he_ge : start + cfg.max_chunk_chars ≤
              floorCharBoundary text (start + cfg.max_chunk_chars) + 3 :=
            le_floorCharBoundary_add_three text _ (by omega)
          have he_ltL : floorCharBoundary text (start + cfg.max_chunk_chars) <
              byteLen text := by omega
          rw [if_pos he_ltL]
          have hfbp := findBreakPoint_bounds cfg text
            (floorCharBoundary text (start + cfg.max_chunk_chars))
          rw [floorCharBoundary_idem text] at hfbp
          have hce_leL : findBreakPoint cfg text
              (floorCharBoundary text (start + cfg.max_chunk_chars)) ≤ byteLen text := by
            omega
          have hcb_ge : floorCharBoundary text (start + cfg.max_chunk_chars) -
                cfg.overlap_chars ≤
              ceilCharBoundary text
                (floorCharBoundary text (start + cfg.max_chunk_chars) -
                  cfg.overlap_chars) :=
            le_ceilCharBoundary text _ (by omega)
          have hce_ge : start + cfg.overlap_chars + 1 ≤ findBreakPoint cfg text
              (floorCharBoundary text (start + cfg.max_chunk_chars)) := by
            omega
          split
          case isTrue hend => simp
          case isFalse hend =>
            apply ih
            have hs1 : findBreakPoint cfg text
                  (floorCharBoundary text (start + cfg.max_chunk_chars)) -
                  cfg.overlap_chars ≤
                ceilCharBoundary text
                  (findBreakPoint cfg text
                    (floorCharBoundary text (start + cfg.max_chunk_chars)) -
                    cfg.overlap_chars) :=
              le_ceilCharBoundary text _ (by omega)
            split_ifs <;> omega

/-- C5 (amended): chunk_text terminates and returns a list of chunks for
every input whenever max_chunk_chars is at least 2 * overlap_chars + 4
(which holds for the default configuration 1024 / 128); for degenerate
configurations the loop need not terminate, because the forward-progress
fallback advances start to chunk_end only when the overlap-adjusted start
is at most (chunks_so_far - 1) * max_chunk_chars rather than comparing it
against the previous window start. -/
theorem C5_chunk_text_total (cfg : ChunkerConfig) (text : List Char)
    (hcfg : 2 * cfg.overlap_chars + 4 ≤ cfg.max_chunk_chars) :
    (chunk_text cfg text).isSome = true := by
  unfold chunk_text chunkTextFuel
  dsimp only
  split
  · rfl
  · split
    · rfl
    · exact chunkLoop_isSome cfg (rustTrim text) hcfg _ 0 [] (by omega)

/-- C5, witness: the default configuration 1024 / 128 satisfies the
termination bound, at a sample input. -/
theorem C5_chunk_text_total_witness :
    (chunk_text ⟨1024, 128⟩ exTextAE).isSome = true :=
  C5_chunk_text_total ⟨1024, 128⟩ exTextAE (by decide)

/-! ## Mock embedding model (embeddings/model.rs)

MockEmbeddingModel::embed hashes the UTF-8 bytes of the text with a
wrapping fold over u64, derives one value per component, and
L2-normalizes. Texts are modelled by their byte lists; u64 wrapping
arithmetic is `% 2 ^ 64`; f32 values are real numbers. -/

/-- The u64 modulus. -/
def u64Mod : Nat := 18446744073709551616

/-- The rolling hash of MockEmbeddingModel::embed:
acc.wrapping_mul(31).wrapping_add(byte). -/
def mockHash (bytes : List Nat) : Nat :=
  bytes.foldl (fun acc b => (acc * 31 + b) % u64Mod) 0

/-- The pre-normalization component value before the 1/sqrt(dim) scale:
(hash.wrapping_mul(i+1) % 1000) / 1000 - 0.5, exact over the rationals. -/
def mockRaw (hash : Nat) (i : Nat) : ℚ :=
  (((hash * (i + 1)) % u64Mod % 1000 : Nat) : ℚ) / 1000 - 1 / 2

/-- One component of the unnormalized mock embedding. -/
noncomputable def mockComponent (dim : Nat) (hash : Nat) (i : Nat) : ℝ :=
  (mockRaw hash i : ℝ) / Real.sqrt dim

/-- The unnormalized mock embedding vector. -/
noncomputable def mockPre (dim : Nat) (bytes : List Nat) : List ℝ :=
  (List.range dim).map (mockComponent dim (mockHash bytes))

/-- The L2 norm computed by the code: sqrt of the sum of squares. -/
noncomputable def l2norm (v : List ℝ) : ℝ :=
  Real.sqrt ((v.map (fun x => x * x)).sum)

/-- The normalization step: divide by the norm when it is positive. -/
noncomputable def normalizeVec (v : List ℝ) : List ℝ :=
  if 0 < l2norm v then v.map (fun x => x / l2norm v) else v

/-- MockEmbeddingModel::embed. -/
noncomputable def MockEmbeddingModel.embed (dim : Nat) (bytes : List Nat) : List ℝ :=
  normalizeVec (mockPre dim bytes)

/-- MockEmbeddingModel::embed_batch maps embed over the batch. -/
noncomputable def MockEmbeddingModel.embed_batch (dim : Nat)
    (texts : List (List Nat)) : List (List ℝ) :=
  texts.map (MockEmbeddingModel.embed dim)

/-- EmbeddingModel::embed delegates to the mock fallback. -/
noncomputable def EmbeddingModel.embed (dim : Nat) (bytes : List Nat) : List ℝ :=
  MockEmbeddingModel.embed dim bytes

theorem mockHash_lt (bytes : List Nat) : mockHash bytes < u64Mod := by
  unfold mockHash
  have key : ∀ (l : List Nat) (acc : Nat), acc < u64Mod →
      List.foldl (fun acc b => (acc * 31 + b) % u64Mod) acc l < u64Mod := by
    intro l
    induction l with
    | nil => intro acc h; exact h
    | cons b l ih =>
        intro acc _
        exact ih _ (Nat.mod_lt _ (by unfold u64Mod; omega))
  exact key bytes 0 (by unfold u64Mod; omega)

theorem ratio_ne_half (n : Nat) (hn : n ≠ 500) : ((n : ℚ)) / 1000 - 1 / 2 ≠ 0 := by
  intro hc
  apply hn
  have h1 : (n : ℚ) = 500 := by
    field_simp at hc
    linarith
  exact_mod_cast h1

/-- Some unnormalized component is nonzero once there are two components:
if the hash is not 500 mod 1000 the first component is nonzero, else the
wrapped double of the hash is 0 or 384 mod 1000 and the second is. -/
theorem mockRaw_ne_zero (hash : Nat) (hlt : hash < u64Mod) :
    mockRaw hash 0 ≠ 0 ∨ mockRaw hash 1 ≠ 0 := by
  by_cases h500 : hash % 1000 = 500
  · right
    unfold mockRaw
    apply ratio_ne_half
    have e1 : hash * (1 + 1) = 2 * hash := by ring
    rw [e1]
    rcases le_or_lt u64Mod (2 * hash) with hbig | hsmall
    · have hw : 2 * hash % u64Mod = 2 * hash - u64Mod := by
        unfold u64Mod at *; omega
      rw [hw]
      unfold u64Mod at *
      omega
    · rw [Nat.mod_eq_of_lt hsmall]
      omega
  · left
    unfold mockRaw
    apply ratio_ne_half
    have e0 : hash * (0 + 1) = hash := by ring
    rw [e0, Nat.mod_eq_of_lt hlt]
    exact h500

theorem sum_sq_nonneg (v : List ℝ) : 0 ≤ (v.map (fun x => x * x)).sum := by
  induction v with
  | nil => simp
  | cons x v ih =>
      simp only [List.map_cons, List.sum_cons]
      nlinarith [mul_self_nonneg x]

theorem l2norm_nonneg (v : List ℝ) : 0 ≤ l2norm v := Real.sqrt_nonneg _

theorem sum_sq_pos (v : List ℝ) (x : ℝ) (hx : x ∈ v) (hne : x ≠ 0) :
    0 < (v.map (fun y => y * y)).sum := by
  have hmem : x * x ∈ v.map (fun y => y * y) := List.mem_map_of_mem _ hx
  have hle : x * x ≤ (v.map (fun y => y * y)).sum :=
    List.single_le_sum (fun y hy => by
      obtain ⟨z, _, rfl⟩ := List.mem_map.mp hy
      exact mul_self_nonneg z) _ hmem
  nlinarith [mul_self_nonneg x, sq_abs x, abs_pos.mpr hne]

theorem l2norm_div (v : List ℝ) (n : ℝ) (hn : 0 < n) :
    l2norm (v.map (fun x => x / n)) = l2norm v / n := by
  unfold l2norm
  rw [List.map_map]
  have : ((fun x => x * x) ∘ fun x => x / n) = fun x => (x * x) / (n * n) := by
    funext x
    exact div_mul_div_comm x n x n
  rw [this]
  have hsum : ∀ w : List ℝ, (w.map (fun x => x * x / (n * n))).sum =
      (w.map (fun x => x * x)).sum / (n * n) := by
    intro w
    induction w with
    | nil => simp
    | cons x w ih =>
        simp only [List.map_cons, List.sum_cons, ih]
        ring
  rw [hsum v, Real.sqrt_div (sum_sq_nonneg v), Real.sqrt_mul_self hn.le]

theorem embed_norm_one (dim : Nat) (bytes : List Nat) (h2 : 2 ≤ dim) :
    (MockEmbeddingModel.embed dim bytes).length = dim ∧
      l2norm (MockEmbeddingModel.embed dim bytes) = 1 := by
  have hlt := mockHash_lt bytes
  have hsd : (0 : ℝ) < Real.sqrt dim := by
    apply Real.sqrt_pos.mpr
    have : (0 : ℝ) < (dim : ℝ) := by exact_mod_cast Nat.lt_of_lt_of_le (by omega) h2
    exact this
  have hex : ∃ i, i < dim ∧ mockRaw (mockHash bytes) i ≠ 0 := by
    rcases mockRaw_ne_zero (mockHash bytes) hlt with h | h
    · exact ⟨0, by omega, h⟩
    · exact ⟨1, by omega, h⟩
  obtain ⟨i0, hi0, hraw⟩ := hex
  have hcomp : mockComponent dim (mockHash bytes) i0 ≠ 0 := by
    unfold mockComponent
    exact div_ne_zero (by exact_mod_cast hraw) (ne_of_gt hsd)
  have hmem : mockComponent dim (mockHash bytes) i0 ∈ mockPre dim bytes := by
    unfold mockPre
    exact List.mem_map_of_mem _ (List.mem_range.mpr hi0)
  have hSpos := sum_sq_pos (mockPre dim bytes) _ hmem hcomp
  have hnpos : 0 < l2norm (mockPre dim bytes) := Real.sqrt_pos.mpr hSpos
  constructor
  · unfold MockEmbeddingModel.embed normalizeVec
    rw [if_pos hnpos]
    simp [mockPre]
  · unfold MockEmbeddingModel.embed normalizeVec
    rw [if_pos hnpos, l2norm_div _ _ hnpos, div_self (ne_of_gt hnpos)]

/-- C6: every vector the embedder emits, through embed, embed_batch or the
EmbeddingModel delegation to the mock fallback, has length exactly dim and
L2 norm within [0.99, 1.01] (the norm is exactly 1 over the reals) as soon
as the dimension is at least 2, which covers the reference dimension 384. -/
theorem C6_embedder_norm (dim : Nat) (h2 : 2 ≤ dim) :
    (∀ bytes : List Nat, (MockEmbeddingModel.embed dim bytes).length = dim ∧
        99 / 100 ≤ l2norm (MockEmbeddingModel.embed dim bytes) ∧
        l2norm (MockEmbeddingModel.embed dim bytes) ≤ 101 / 100) ∧
      (∀ bytes : List Nat, EmbeddingModel.embed dim bytes = MockEmbeddingModel.embed dim bytes) ∧
      (∀ texts : List (List Nat), ∀ v ∈ MockEmbeddingModel.embed_batch dim texts,
        v.length = dim ∧ 99 / 100 ≤ l2norm v ∧ l2norm v ≤ 101 / 100) := by
  have key : ∀ bytes : List Nat, (MockEmbeddingModel.embed dim bytes).length = dim ∧
      99 / 100 ≤ l2norm (MockEmbeddingModel.embed dim bytes) ∧
      l2norm (MockEmbeddingModel.embed dim bytes) ≤ 101 / 100 := by
    intro bytes
    obtain ⟨hl, hn⟩ := embed_norm_one dim bytes h2
    exact ⟨hl, by rw [hn]; norm_num, by rw [hn]; norm_num⟩
  refine ⟨key, fun bytes => rfl, ?_⟩
  intro texts v hv
  unfold MockEmbeddingModel.embed_batch at hv
  obtain ⟨t, _, rfl⟩ := List.mem_map.mp hv
  exact key t

/-- C6, witness: at the reference dimension 384 on the empty text. -/
theorem C6_embedder_norm_witness :
    (MockEmbeddingModel.embed 384 []).length = 384 ∧
      99 / 100 ≤ l2norm (MockEmbeddingModel.embed 384 []) ∧
      l2norm (MockEmbeddingModel.embed 384 []) ≤ 101 / 100 :=
  (C6_embedder_norm 384 (by norm_num)).1 []

/-! ## Filesystem model for the embeddings layout

Paths are segment lists relative to the data directory. The state holds
the parquet files with their rows and the set of directories; the order
of `files` is the enumeration order `std::fs::read_dir` yields, which the
platform does not specify. -/

/-- One row of an embeddings parquet file (spec section 6.2); f32 vector
components are rationals. -/
structure EmbRow where
  chunk_id : String
  conversation_id : String
  message_id : String
  chunk_index : Nat
  text : String
  embedding : List ℚ
deriving DecidableEq

abbrev FsPath := List String

structure FS where
  files : List (FsPath × List EmbRow)
  dirs : List FsPath
deriving DecidableEq

def FS.fileExists (fs : FS) (p : FsPath) : Bool :=
  fs.files.any (fun f => f.1 = p)

def FS.dirExists (fs : FS) (p : FsPath) : Bool :=
  fs.dirs.any (fun d => d = p)

def FS.fileRows (fs : FS) (p : FsPath) : Option (List EmbRow) :=
  (fs.files.find? (fun f => f.1 = p)).map (fun f => f.2)

/-- File::create truncates or creates the file at the path. -/
def FS.createFile (fs : FS) (p : FsPath) (rows : List EmbRow) : FS :=
  ⟨(p, rows) :: fs.files.filter (fun f => ¬ f.1 = p), fs.dirs⟩

/-- Is q strictly below the directory dir. -/
def pathUnder (dir q : FsPath) : Bool :=
  decide (dir.length < q.length) && decide (q.take dir.length = dir)

/-- std::fs::remove_dir_all: the directory and everything below it go away. -/
def FS.removeDirAll (fs : FS) (dir : FsPath) : FS :=
  ⟨fs.files.filter (fun f => ¬ pathUnder dir f.1 = true),
   fs.dirs.filter (fun d => ¬ (d = dir ∨ pathUnder dir d = true))⟩

/-- std::fs::create_dir_all: the directory and its ancestors exist after. -/
def FS.createDirAll (fs : FS) (dir : FsPath) : FS :=
  ⟨fs.files,
   fs.dirs ++ ((List.range dir.length).map (fun i => dir.take (i + 1))).filter
     (fun d => ¬ fs.dirExists d = true)⟩

/-- ParquetStorageConfig::embeddings_dir. -/
def embeddingsDirPath (provider : String) : FsPath := ["embeddings", provider]

/-- ParquetStorageConfig::consolidated_embeddings_path. -/
def consolidatedPath (provider : String) : FsPath :=
  ["embeddings", provider ++ ".parquet"]

/-- ParquetStorageConfig::embeddings_path. -/
def embeddingsFilePath (provider conversation_id : String) : FsPath :=
  ["embeddings", provider, conversation_id ++ ".parquet"]

/-- Does the file name carry the parquet extension. Rust compares
`Path::extension()` with "parquet"; for ordinary names this is a suffix
check on ".parquet" (the model uses the character list form, which the
kernel can evaluate). -/
def hasParquetExt (name : String) : Bool :=
  (".parquet".data).isSuffixOf name.data

/-- The read_dir filter of the compactor: entries of the directory whose
name has the parquet extension, in enumeration order. -/
def parquetFilesIn (fs : FS) (dir : FsPath) : List (FsPath × List EmbRow) :=
  fs.files.filter (fun f =>
    match f.1.drop dir.length with
    | [name] => decide (f.1.take dir.length = dir) && hasParquetExt name
    | _ => false)

/-- The record batches of every source file streamed into the writer in the
order the directory listing yields them. -/
def mergedRows (files : List (FsPath × List EmbRow)) : List EmbRow :=
  files.flatMap (fun f => f.2)

structure CompactionResult where
  provider : String
  files_merged : Nat
  total_rows : Nat
  output_path : FsPath
deriving DecidableEq

/-! ## The compactor (storage/compactor.rs) -/

/-- EmbeddingsCompactor::compact_provider as a state transition: when the
per-conversation directory is missing or holds no parquet file nothing
happens and no result is reported; otherwise the consolidated file is
created at the final path with the concatenated rows and the source
directory is removed recursively. -/
def compact_provider (fs : FS) (provider : String) : FS × Option CompactionResult :=
  let dir := embeddingsDirPath provider
  if fs.dirExists dir = true then
    let files := parquetFilesIn fs dir
    if files.isEmpty then (fs, none)
    else
      let rows := mergedRows files
      let out := consolidatedPath provider
      (((fs.createFile out rows).removeDirAll dir),
        some ⟨provider, files.length, rows.length, out⟩)
  else (fs, none)

/-- The observable filesystem states of one compact_provider run, in the
order the code produces them: the initial state, the state after
File::create opens the FINAL output path (line 76, before any batch is
copied), the state once the writer has been closed, and the state after
remove_dir_all. There is no .tmp path, no fsync and no rename in the
code. -/
def compact_provider_trace (fs : FS) (provider : String) : List FS :=
  let dir := embeddingsDirPath provider
  if fs.dirExists dir = true then
    let files := parquetFilesIn fs dir
    if files.isEmpty then [fs]
    else
      let rows := mergedRows files
      let out := consolidatedPath provider
      [fs, fs.createFile out [], fs.createFile out rows,
        (fs.createFile out rows).removeDirAll dir]
  else [fs]

/-! ## The embeddings store (storage/embeddings.rs) -/

structure Chunk where
  text : String
  message_id : String
  chunk_index : Nat
  total_chunks : Nat
deriving DecidableEq

def EMBEDDING_DIM : Nat := 384

/-- One row of EmbeddingsStore::create_record_batch, with
chunk_id = message_id ++ "_" ++ chunk_index. -/
def embRowOf (conversation_id : String) (c : Chunk) (e : List ℚ) : EmbRow :=
  ⟨c.message_id ++ "_" ++ toString c.chunk_index, conversation_id, c.message_id,
    c.chunk_index, c.text, e⟩

/-- EmbeddingsStore::write_embeddings: validation happens before any
filesystem effect, in the order of the code. -/
def write_embeddings (fs : FS) (conversation_id provider_id : String)
    (chunks : List Chunk) (embeddings : List (List ℚ)) : FS × Except String Unit :=
  if chunks.isEmpty then (fs, .ok ())
  else if ¬ chunks.length = embeddings.length then
    (fs, .error "Chunk count mismatch")
  else if embeddings.any (fun e => ¬ e.length = EMBEDDING_DIM) then
    (fs, .error "Embedding dimension mismatch")
  else
    let path := embeddingsFilePath provider_id conversation_id
    let rows := (chunks.zip embeddings).map (fun p => embRowOf conversation_id p.1 p.2)
    (((fs.createDirAll (embeddingsDirPath provider_id)).createFile path rows), .ok ())

/-! ## Semantic search (storage/duckdb.rs, search_semantic) -/

/-- Glob match of one path segment: a star matches any character run. -/
def globSegMatch : List Char → List Char → Bool
  | [], name => name.isEmpty
  | p :: ps, name =>
      if p = '*' then name.tails.any (fun suf => globSegMatch ps suf)
      else
        match name with
        | [] => false
        | n :: ns => p = n && globSegMatch ps ns

/-- Glob match of a whole path, segment by segment (a star does not cross
a path separator). -/
def pathGlobMatch (pat path : FsPath) : Bool :=
  decide (pat.length = path.length) &&
    (pat.zip path).all (fun q => globSegMatch q.1.data q.2.data)

/-- The embedding file glob of search_semantic: embeddings/*/*.parquet. -/
def embeddingsGlob : FsPath := ["embeddings", "*", "*.parquet"]

structure SemanticSearchResult where
  conversation_id : String
  message_id : String
  chunk_text : String
  score : ℚ
deriving DecidableEq

/-- Squared L2 distance between the query vector and a stored embedding.
DuckDB list_distance takes the square root, a monotone map, so ordering by
this squared distance orders rows identically. -/
def distSq (q v : List ℚ) : ℚ :=
  ((q.zip v).map (fun p => (p.1 - p.2) ^ 2)).sum

/-- DuckDbQuery::search_semantic: the rows of every file the glob
embeddings/*/*.parquet matches, ordered by distance ascending, truncated
to the limit (an empty match set yields an empty result). -/
def search_semantic (fs : FS) (query : List ℚ) (limit : Nat) :
    List SemanticSearchResult :=
  let rows := (fs.files.filter (fun f => pathGlobMatch embeddingsGlob f.1)).flatMap
    (fun f => f.2)
  let scored := rows.map (fun r =>
    (⟨r.conversation_id, r.message_id, r.text, distSq query r.embedding⟩ :
      SemanticSearchResult))
  (List.insertionSort (fun a b => a.score ≤ b.score) scored).take limit

/-- A stored embedding row used by the filesystem scenarios. -/
def exEmbRow : EmbRow := ⟨"m1_0", "c1", "m1", 0, "hello", List.replicate 384 0⟩

/-- Pre-compaction layout: one per-conversation embedding file. -/
def fsPerConv : FS :=
  ⟨[(["embeddings", "chatgpt", "c1.parquet"], [exEmbRow])],
   [["embeddings"], ["embeddings", "chatgpt"]]⟩

/-- Post-compaction layout: only the consolidated per-provider file. -/
def fsConsolidated : FS :=
  ⟨[(["embeddings", "chatgpt.parquet"], [exEmbRow])], [["embeddings"]]⟩

/-- C1: the glob embeddings/STAR/STAR.parquet used by search_semantic
matches the per-conversation layout but not the consolidated file
embeddings/chatgpt.parquet, so after compaction has replaced the directory
by the consolidated file semantic search returns no rows at all, although
the row is persisted. -/
theorem C1_semantic_glob_misses_consolidated :
    pathGlobMatch embeddingsGlob ["embeddings", "chatgpt", "c1.parquet"] = true ∧
    pathGlobMatch embeddingsGlob ["embeddings", "chatgpt.parquet"] = false ∧
    search_semantic fsPerConv (List.replicate 384 0) 10 ≠ [] ∧
    (compact_provider fsPerConv "chatgpt").1 = fsConsolidated ∧
    search_semantic fsConsolidated (List.replicate 384 0) 10 = [] := by
  decide

/-- C3: compact_provider writes the consolidated file directly at its final
path before the source directory is removed, so there is an observable
state in which both the consolidated file and the per-conversation
directory are present (and no .tmp, fsync or rename exists in the code). -/
theorem C3_both_layouts_present_during_compaction :
    ∃ s ∈ compact_provider_trace fsPerConv "chatgpt",
      s.fileExists (consolidatedPath "chatgpt") = true ∧
      s.dirExists (embeddingsDirPath "chatgpt") = true := by
  decide

theorem dirExists_removeDirAll_self (fs : FS) (dir : FsPath) :
    (fs.removeDirAll dir).dirExists dir = false := by
  simp only [FS.removeDirAll, FS.dirExists]
  rw [List.any_eq_false]
  intro d hd
  have hmem := List.of_mem_filter hd
  simp_all

theorem compact_provider_of_dir_missing (fs : FS) (p : String)
    (h : fs.dirExists (embeddingsDirPath p) = false) :
    compact_provider fs p = (fs, none) := by
  unfold compact_provider
  dsimp only
  rw [h]
  simp

theorem compact_provider_of_no_files (fs : FS) (p : String)
    (h : fs.dirExists (embeddingsDirPath p) = true)
    (hf : (parquetFilesIn fs (embeddingsDirPath p)).isEmpty = true) :
    compact_provider fs p = (fs, none) := by
  unfold compact_provider
  dsimp only
  rw [h, hf]
  simp

theorem compact_provider_of_success (fs : FS) (p : String)
    (h : fs.dirExists (embeddingsDirPath p) = true)
    (hf : (parquetFilesIn fs (embeddingsDirPath p)).isEmpty = false) :
    compact_provider fs p =
      (((fs.createFile (consolidatedPath p)
          (mergedRows (parquetFilesIn fs (embeddingsDirPath p)))).removeDirAll
        (embeddingsDirPath p)),
       some ⟨p, (parquetFilesIn fs (embeddingsDirPath p)).length,
         (mergedRows (parquetFilesIn fs (embeddingsDirPath p))).length,
         consolidatedPath p⟩) := by
  unfold compact_provider
  dsimp only
  rw [h, hf]
  simp

/-- C9: compact_provider is idempotent: the state after two runs equals the
state after one, a successful run leaves no per-conversation directory, and
the repeat call reports no work. -/
theorem C9_compact_idempotent (fs : FS) (p : String) :
    (compact_provider (compact_provider fs p).1 p).1 = (compact_provider fs p).1 ∧
      ((compact_provider fs p).2.isSome = true →
        (compact_provider fs p).1.dirExists (embeddingsDirPath p) = false ∧
        (compact_provider (compact_provider fs p).1 p).2 = none) := by
  cases hd : fs.dirExists (embeddingsDirPath p) with
  | false =>
      have h1 := compact_provider_of_dir_missing fs p hd
      rw [h1]
      exact ⟨by rw [h1], by simp⟩
  | true =>
      cases hf : (parquetFilesIn fs (embeddingsDirPath p)).isEmpty with
      | true =>
          have h1 := compact_provider_of_no_files fs p hd hf
          rw [h1]
          exact ⟨by rw [h1], by simp⟩
      | false =>
          have h1 := compact_provider_of_success fs p hd hf
          have hgone : (compact_provider fs p).1.dirExists (embeddingsDirPath p) = false := by
            rw [h1]
            exact dirExists_removeDirAll_self _ _
          have h2 := compact_provider_of_dir_missing (compact_provider fs p).1 p hgone
          rw [h2]
          exact ⟨rfl, fun _ => ⟨hgone, rfl⟩⟩

theorem find?_key_filter (l : List (FsPath × List EmbRow))
    (pr : FsPath × List EmbRow → Bool) (q : FsPath)
    (hkeep : ∀ f : FsPath × List EmbRow, f.1 = q → pr f = true) :
    (l.filter pr).find? (fun f => f.1 = q) = l.find? (fun f => f.1 = q) := by
  induction l with
  | nil => rfl
  | cons f l ih =>
      by_cases hf : pr f = true
      · rw [List.filter_cons_of_pos hf, List.find?_cons, List.find?_cons]
        cases decide (f.1 = q)
        · exact ih
        · rfl
      · have hq : decide (f.1 = q) = false := by
          have : ¬ f.1 = q := fun hc => hf (hkeep f hc)
          simp [this]
        rw [List.filter_cons_of_neg hf, List.find?_cons, hq]
        exact ih

theorem fileRows_createFile_self (fs : FS) (p : FsPath) (rows : List EmbRow) :
    (fs.createFile p rows).fileRows p = some rows := by
  simp [FS.createFile, FS.fileRows, List.find?_cons_of_pos]

theorem fileRows_createFile_ne (fs : FS) (p : FsPath) (rows : List EmbRow)
    (q : FsPath) (hq : ¬ q = p) :
    (fs.createFile p rows).fileRows q = fs.fileRows q := by
  simp only [FS.createFile, FS.fileRows]
  rw [List.find?_cons, decide_eq_false (fun hc : (p, rows).1 = q => hq hc.symm)]
  rw [find?_key_filter _ _ _ (fun f hf => decide_eq_true (by
    intro hc
    rw [hf] at hc
    exact hq hc))]

theorem fileRows_removeDirAll (fs : FS) (dir q : FsPath)
    (h : pathUnder dir q = false) :
    (fs.removeDirAll dir).fileRows q = fs.fileRows q := by
  simp only [FS.removeDirAll, FS.fileRows]
  rw [find?_key_filter _ _ _ (fun f hf => by simp [hf, h])]

theorem fileRows_createDirAll (fs : FS) (dir q : FsPath) :
    (fs.createDirAll dir).fileRows q = fs.fileRows q := rfl

/-- C10: write_embeddings validates before touching the filesystem. An
empty chunk list returns Ok with the state untouched; a chunk/embedding
count mismatch or a wrong embedding dimension returns an error with the
state untouched; a valid call writes exactly one row per chunk with
chunk_id message_id ++ "_" ++ chunk_index, touching no other file. -/
theorem C10_write_embeddings_validates (fs : FS) (cid pid : String)
    (chunks : List Chunk) (embeddings : List (List ℚ)) :
    (chunks = [] → write_embeddings fs cid pid chunks embeddings = (fs, .ok ())) ∧
    (chunks ≠ [] → chunks.length ≠ embeddings.length →
      write_embeddings fs cid pid chunks embeddings =
        (fs, .error "Chunk count mismatch")) ∧
    (chunks ≠ [] → chunks.length = embeddings.length →
      (∃ e ∈ embeddings, e.length ≠ EMBEDDING_DIM) →
      write_embeddings fs cid pid chunks embeddings =
        (fs, .error "Embedding dimension mismatch")) ∧
    (chunks ≠ [] → chunks.length = embeddings.length →
      (∀ e ∈ embeddings, e.length = EMBEDDING_DIM) →
      (write_embeddings fs cid pid chunks embeddings).2 = .ok () ∧
      ∃ rows, (write_embeddings fs cid pid chunks embeddings).1.fileRows
          (embeddingsFilePath pid cid) = some rows ∧
        rows.length = chunks.length ∧
        rows.map (fun r => r.chunk_id) =
          chunks.map (fun c => c.message_id ++ "_" ++ toString c.chunk_index) ∧
        ∀ q : FsPath, q ≠ embeddingsFilePath pid cid →
          (write_embeddings fs cid pid chunks embeddings).1.fileRows q =
            fs.fileRows q) := by
  refine ⟨?_, ?_, ?_, ?_⟩
  · intro h
    unfold write_embeddings
    rw [if_pos (by simp [h])]
  · intro hne hlen
    unfold write_embeddings
    rw [if_neg (by simp [hne]), if_pos hlen]
  · intro hne hlen ⟨e, he, hd⟩
    unfold write_embeddings
    rw [if_neg (by simp [hne]), if_neg (by simp [hlen]),
      if_pos (List.any_eq_true.mpr ⟨e, he, by simp [hd]⟩)]
  · intro hne hlen hdim
    have hval : embeddings.any (fun e => ¬ e.length = EMBEDDING_DIM) = false := by
      rw [List.any_eq_false]
      intro e he
      simp [hdim e he]
    have heq : write_embeddings fs cid pid chunks embeddings =
        (((fs.createDirAll (embeddingsDirPath pid)).createFile
            (embeddingsFilePath pid cid)
            ((chunks.zip embeddings).map (fun p => embRowOf cid p.1 p.2))), .ok ()) := by
      unfold write_embeddings
      rw [if_neg (by simp [hne]), if_neg (by simp [hlen]), if_neg (by rw [hval]; exact Bool.false_ne_true)]
    rw [heq]
    refine ⟨rfl, (chunks.zip embeddings).map (fun p => embRowOf cid p.1 p.2),
      fileRows_createFile_self _ _ _, ?_, ?_, ?_⟩
    · rw [List.length_map, List.length_zip, hlen, Nat.min_self]
    · rw [List.map_map]
      have hfst : ((chunks.zip embeddings).map
          (fun p => (fun r => r.chunk_id) (embRowOf cid p.1 p.2))) =
          ((chunks.zip embeddings).map
            (fun p => p.1.message_id ++ "_" ++ toString p.1.chunk_index)) := rfl
      calc ((chunks.zip embeddings).map ((fun r => r.chunk_id) ∘ fun p => embRowOf cid p.1 p.2))
          = ((chunks.zip embeddings).map Prod.fst).map
              (fun c => c.message_id ++ "_" ++ toString c.chunk_index) := by
            rw [List.map_map]; rfl
        _ = chunks.map (fun c => c.message_id ++ "_" ++ toString c.chunk_index) := by
            rw [List.map_fst_zip chunks embeddings (le_of_eq hlen)]
    · intro q hqne
      rw [fileRows_createFile_ne _ _ _ _ hqne, fileRows_createDirAll]

/-- Rows used by the compaction ordering scenario. -/
def exRowA : EmbRow := ⟨"a_0", "ca", "a", 0, "ta", List.replicate 384 0⟩

def exRowB : EmbRow := ⟨"b_0", "cb", "b", 0, "tb", List.replicate 384 0⟩

/-- The same two per-conversation files presented in the two possible
read_dir enumeration orders. -/
def fsOrdA : FS :=
  ⟨[(["embeddings", "p", "a.parquet"], [exRowA]),
    (["embeddings", "p", "b.parquet"], [exRowB])],
   [["embeddings"], ["embeddings", "p"]]⟩

def fsOrdB : FS :=
  ⟨[(["embeddings", "p", "b.parquet"], [exRowB]),
    (["embeddings", "p", "a.parquet"], [exRowA])],
   [["embeddings"], ["embeddings", "p"]]⟩

/-- C8, counterexample: the compactor does not sort the directory listing,
so the consolidated row order is a function of the read_dir enumeration
order, not of the set of source files: the same two files in the two
enumeration orders produce different consolidated contents. -/
theorem C8_row_order_counterexample :
    fsOrdA.files.Perm fsOrdB.files ∧
    (compact_provider fsOrdA "p").1.fileRows (consolidatedPath "p") =
      some [exRowA, exRowB] ∧
    (compact_provider fsOrdB "p").1.fileRows (consolidatedPath "p") =
      some [exRowB, exRowA] ∧
    (compact_provider fsOrdA "p").1.fileRows (consolidatedPath "p") ≠
      (compact_provider fsOrdB "p").1.fileRows (consolidatedPath "p") := by
  refine ⟨List.Perm.swap _ _ _, by decide, by decide, by decide⟩

theorem pathUnder_consolidated (p : String) :
    pathUnder (embeddingsDirPath p) (consolidatedPath p) = false := by
  simp [pathUnder, embeddingsDirPath, consolidatedPath]

/-- C8 (amended): the consolidated file holds the record batches of the
source files concatenated in directory-enumeration order, and the row
multiset (though not the row sequence) is a function of the set of source
files: any two filesystem states whose file lists are permutations of each
other produce permuted consolidated row lists. -/
theorem C8_merge_enumeration_order (fs : FS) (p : String)
    (hd : fs.dirExists (embeddingsDirPath p) = true)
    (hne : (parquetFilesIn fs (embeddingsDirPath p)).isEmpty = false) :
    (compact_provider fs p).1.fileRows (consolidatedPath p) =
      some (mergedRows (parquetFilesIn fs (embeddingsDirPath p))) ∧
    ∀ fs2 : FS, fs.files.Perm fs2.files →
      (mergedRows (parquetFilesIn fs (embeddingsDirPath p))).Perm
        (mergedRows (parquetFilesIn fs2 (embeddingsDirPath p))) := by
  constructor
  · rw [compact_provider_of_success fs p hd hne]
    rw [fileRows_removeDirAll _ _ _ (pathUnder_consolidated p)]
    exact fileRows_createFile_self _ _ _
  · intro fs2 hperm
    exact ((hperm.filter _).flatMap_right _)

/-- C8, witness: the merge-order theorem applied to the concrete two-file
state, with the swapped enumeration as the permuted state. -/
theorem C8_merge_enumeration_order_witness :
    (compact_provider fsOrdA "p").1.fileRows (consolidatedPath "p") =
      some (mergedRows (parquetFilesIn fsOrdA (embeddingsDirPath "p"))) ∧
    (mergedRows (parquetFilesIn fsOrdA (embeddingsDirPath "p"))).Perm
      (mergedRows (parquetFilesIn fsOrdB (embeddingsDirPath "p"))) := by
  have h := C8_merge_enumeration_order fsOrdA "p" (by decide) (by decide)
  exact ⟨h.1, h.2 fsOrdB (List.Perm.swap _ _ _)⟩

/-! ## Hybrid search (storage/duckdb.rs, search_hybrid)

The SQL layers deliver the FTS candidate list and the semantic candidate
list; the fusion then builds a HashMap keyed by conversation_id with the
two rank-indexed loops of the code, collects the map entries, sorts by
score descending with Rust sort_by (a stable sort, modelled by insertion
sort, which agrees with every stable sort under the same total preorder)
and truncates. A HashMap does not fix an iteration order, so the entry
collection order is a parameter: any ordering of the key set may occur. -/

structure FtsResult where
  conversation_id : String
  snippet : String
deriving DecidableEq

def rrfK : ℚ := 60

/-- The FTS loop body: or_insert an empty-data entry, then add the
reciprocal-rank score 1 / (K + rank). -/
def ftsStep (m : String → Option (String × String × ℚ)) (rank : Nat) (r : FtsResult) :
    String → Option (String × String × ℚ) :=
  fun k =>
    if k = r.conversation_id then
      match m k with
      | none => some ("", r.snippet, 1 / (rrfK + rank))
      | some (a, b, s) => some (a, b, s + 1 / (rrfK + rank))
    else m k

/-- The semantic loop body: or_insert, overwrite message_id and chunk_text
with the semantic entry, then add the reciprocal-rank score. -/
def semStep (m : String → Option (String × String × ℚ)) (rank : Nat)
    (r : SemanticSearchResult) : String → Option (String × String × ℚ) :=
  fun k =>
    if k = r.conversation_id then
      match m k with
      | none => some (r.message_id, r.chunk_text, 1 / (rrfK + rank))
      | some (_, _, s) => some (r.message_id, r.chunk_text, s + 1 / (rrfK + rank))
    else m k

/-- The combined HashMap of search_hybrid as a key-indexed function: the
FTS loop runs first, then the semantic loop; iter().enumerate() is the
rank-indexed list starting at rank 0. -/
def combinedMap (fts : List FtsResult) (sem : List SemanticSearchResult) :
    String → Option (String × String × ℚ) :=
  (List.enumFrom 0 sem).foldl (fun m p => semStep m p.1 p.2)
    ((List.enumFrom 0 fts).foldl (fun m p => ftsStep m p.1 p.2) (fun _ => none))

/-- The comparator of the final sort of search_hybrid: descending by
score. Rust sort_by is a stable sort and any two stable sorts under the
same total preorder agree, so the insertion sort below computes exactly
the Rust result. -/
def hybridGE (a b : SemanticSearchResult) : Prop := b.score ≤ a.score

instance : DecidableRel hybridGE :=
  fun a b => inferInstanceAs (Decidable (b.score ≤ a.score))

instance : IsTotal SemanticSearchResult hybridGE :=
  ⟨fun a b => le_total b.score a.score⟩

instance : IsTrans SemanticSearchResult hybridGE :=
  ⟨fun _ _ _ h1 h2 => le_trans h2 h1⟩

/-- The fusion of search_hybrid once both candidate lists are nonempty,
with the HashMap iteration order as an explicit parameter. -/
def search_hybrid_fuse (fts : List FtsResult) (sem : List SemanticSearchResult)
    (limit : Nat) (order : List String) : List SemanticSearchResult :=
  let entries := order.filterMap (fun k =>
    (combinedMap fts sem k).map (fun d =>
      (⟨k, d.1, d.2.1, d.2.2⟩ : SemanticSearchResult)))
  (List.insertionSort hybridGE entries).take limit

/-- DuckDbQuery::search_hybrid over the candidate lists: empty FTS results
fall back to the pure semantic search at the plain limit; empty semantic
results convert the FTS results into semantic-shaped output with score 0;
otherwise the RRF fusion runs. -/
def search_hybrid (fts : List FtsResult) (semFallback sem : List SemanticSearchResult)
    (limit : Nat) (order : List String) : List SemanticSearchResult :=
  if fts.isEmpty then semFallback
  else if sem.isEmpty then
    (fts.take limit).map (fun r => ⟨r.conversation_id, "", r.snippet, 0⟩)
  else search_hybrid_fuse fts sem limit order

/-- The total RRF contribution of the FTS candidates with conversation k,
with ranks counted from n. -/
def ftsContrib : Nat → List FtsResult → String → ℚ
  | _, [], _ => 0
  | n, r :: rest, k =>
      (if r.conversation_id = k then 1 / (rrfK + n) else 0) + ftsContrib (n + 1) rest k

/-- The snippet of the first FTS candidate with conversation k. -/
def ftsFirstSnippet : List FtsResult → String → Option String
  | [], _ => none
  | r :: rest, k =>
      if r.conversation_id = k then some r.snippet else ftsFirstSnippet rest k

/-- The total RRF contribution of the semantic candidates with
conversation k, with ranks counted from n. -/
def semContrib : Nat → List SemanticSearchResult → String → ℚ
  | _, [], _ => 0
  | n, r :: rest, k =>
      (if r.conversation_id = k then 1 / (rrfK + n) else 0) + semContrib (n + 1) rest k

/-- The message_id and chunk_text of the last semantic candidate with
conversation k (the loop overwrites the entry at every occurrence). -/
def semLastData : List SemanticSearchResult → String → Option (String × String)
  | [], _ => none
  | r :: rest, k =>
      match semLastData rest k with
      | some d => some d
      | none =>
          if r.conversation_id = k then some (r.message_id, r.chunk_text) else none

theorem ftsContrib_of_not_mem : ∀ (l : List FtsResult) (n : Nat) (k : String),
    ftsFirstSnippet l k = none → ftsContrib n l k = 0
  | [], _, _, _ => rfl
  | r :: rest, n, k, h => by
      simp only [ftsFirstSnippet] at h
      split at h
      · cases h
      · rename_i hr
        simp only [ftsContrib, if_neg hr, zero_add]
        exact ftsContrib_of_not_mem rest (n + 1) k h

theorem semContrib_of_not_mem : ∀ (l : List SemanticSearchResult) (n : Nat) (k : String),
    semLastData l k = none → semContrib n l k = 0
  | [], _, _, _ => rfl
  | r :: rest, n, k, h => by
      simp only [semLastData] at h
      split at h
      · cases h
      · split at h
        · cases h
        · rename_i hrest hr
          simp only [semContrib, if_neg hr, zero_add]
          exact semContrib_of_not_mem rest (n + 1) k hrest

theorem ftsFold_of_not_mem : ∀ (l : List FtsResult) (n : Nat)
    (m : String → Option (String × String × ℚ)) (k : String),
    ftsFirstSnippet l k = none →
    ((List.enumFrom n l).foldl (fun m p => ftsStep m p.1 p.2) m) k = m k
  | [], _, _, _, _ => rfl
  | r :: rest, n, m, k, h => by
      simp only [ftsFirstSnippet] at h
      split at h
      · cases h
      · rename_i hr
        show ((List.enumFrom (n + 1) rest).foldl (fun m p => ftsStep m p.1 p.2)
          (ftsStep m n r)) k = m k
        rw [ftsFold_of_not_mem rest (n + 1) (ftsStep m n r) k h]
        simp only [ftsStep, if_neg (fun hc : k = r.conversation_id => hr hc.symm)]

theorem ftsFold_char : ∀ (l : List FtsResult) (n : Nat)
    (m : String → Option (String × String × ℚ)) (k : String) (snip : String),
    ftsFirstSnippet l k = some snip →
    ((List.enumFrom n l).foldl (fun m p => ftsStep m p.1 p.2) m) k =
      match m k with
      | none => some ("", snip, ftsContrib n l k)
      | some (a, b, s) => some (a, b, s + ftsContrib n l k)
  | [], _, _, _, _, h => by cases h
  | r :: rest, n, m, k, snip, h => by
      simp only [ftsFirstSnippet] at h
      show ((List.enumFrom (n + 1) rest).foldl (fun m p => ftsStep m p.1 p.2)
        (ftsStep m n r)) k = _
      split at h
      · rename_i hr
        cases h
        have hstep : (ftsStep m n r) k =
            match m k with
            | none => some ("", r.snippet, 1 / (rrfK + n))
            | some (a, b, s) => some (a, b, s + 1 / (rrfK + n)) := by
          simp only [ftsStep, if_pos hr.symm]
        match hrest : ftsFirstSnippet rest k with
        | none =>
            rw [ftsFold_of_not_mem rest (n + 1) _ k hrest, hstep]
            cases m k with
            | none =>
                simp [ftsContrib, if_pos hr, ftsContrib_of_not_mem rest (n + 1) k hrest]
            | some d =>
                obtain ⟨a, b, sc⟩ := d
                simp [ftsContrib, if_pos hr, ftsContrib_of_not_mem rest (n + 1) k hrest]
        | some snip2 =>
            rw [ftsFold_char rest (n + 1) _ k snip2 hrest, hstep]
            cases m k with
            | none => simp [ftsContrib, if_pos hr]
            | some d =>
                obtain ⟨a, b, sc⟩ := d
                simp [ftsContrib, if_pos hr, add_assoc]
      · rename_i hr
        rw [ftsFold_char rest (n + 1) _ k snip h]
        have hstep : (ftsStep m n r) k = m k := by
          simp only [ftsStep, if_neg (fun hc : k = r.conversation_id => hr hc.symm)]
        rw [hstep]
        simp only [ftsContrib, if_neg hr, zero_add]

theorem semFold_of_not_mem : ∀ (l : List SemanticSearchResult) (n : Nat)
    (m : String → Option (String × String × ℚ)) (k : String),
    semLastData l k = none →
    ((List.enumFrom n l).foldl (fun m p => semStep m p.1 p.2) m) k = m k
  | [], _, _, _, _ => rfl
  | r :: rest, n, m, k, h => by
      simp only [semLastData] at h
      split at h
      · cases h
      · split at h
        · cases h
        · rename_i hrest hr
          show ((List.enumFrom (n + 1) rest).foldl (fun m p => semStep m p.1 p.2)
            (semStep m n r)) k = m k
          rw [semFold_of_not_mem rest (n + 1) (semStep m n r) k hrest]
          simp only [semStep, if_neg (fun hc : k = r.conversation_id => hr hc.symm)]

theorem semFold_char : ∀ (l : List SemanticSearchResult) (n : Nat)
    (m : String → Option (String × String × ℚ)) (k : String) (mi ct : String),
    semLastData l k = some (mi, ct) →
    ((List.enumFrom n l).foldl (fun m p => semStep m p.1 p.2) m) k =
      match m k with
      | none => some (mi, ct, semContrib n l k)
      | some (_, _, s) => some (mi, ct, s + semContrib n l k)
  | [], _, _, _, _, _, h => by cases h
  | r :: rest, n, m, k, mi, ct, h => by
      simp only [semLastData] at h
      show ((List.enumFrom (n + 1) rest).foldl (fun m p => semStep m p.1 p.2)
        (semStep m n r)) k = _
      split at h
      · rename_i d hrest
        obtain ⟨dm, dc⟩ := d
        injection h with h2
        injection h2 with h3 h4
        rw [h3, h4] at hrest
        rw [semFold_char rest (n + 1) _ k mi ct hrest]
        by_cases hr : r.conversation_id = k
        · have hstep : (semStep m n r) k =
              match m k with
              | none => some (r.message_id, r.chunk_text, 1 / (rrfK + n))
              | some (a, b, s) => some (r.message_id, r.chunk_text, s + 1 / (rrfK + n)) := by
            simp only [semStep, if_pos hr.symm]
          rw [hstep]
          cases m k with
          | none => simp [semContrib, if_pos hr]
          | some dd =>
              obtain ⟨a, b, sc⟩ := dd
              simp [semContrib, if_pos hr, add_assoc]
        · have hstep : (semStep m n r) k = m k := by
            simp only [semStep, if_neg (fun hc : k = r.conversation_id => hr hc.symm)]
          rw [hstep]
          simp only [semContrib, if_neg hr, zero_add]
      · split at h
        · rename_i hrest hr
          injection h with h2
          injection h2 with h3 h4
          rw [← h3, ← h4]
          have hstep : (semStep m n r) k =
              match m k with
              | none => some (r.message_id, r.chunk_text, 1 / (rrfK + n))
              | some (a, b, s) => some (r.message_id, r.chunk_text, s + 1 / (rrfK + n)) := by
            simp only [semStep, if_pos hr.symm]
          rw [semFold_of_not_mem rest (n + 1) _ k hrest, hstep]
          cases m k with
          | none => simp [semContrib, if_pos hr, semContrib_of_not_mem rest (n + 1) k hrest]
          | some dd =>
              obtain ⟨a, b, sc⟩ := dd
              simp [semContrib, if_pos hr, semContrib_of_not_mem rest (n + 1) k hrest]
        · cases h

theorem combinedMap_char (fts : List FtsResult) (sem : List SemanticSearchResult)
    (k : String) :
    combinedMap fts sem k =
      match ftsFirstSnippet fts k, semLastData sem k with
      | none, none => none
      | some snip, none => some ("", snip, ftsContrib 0 fts k)
      | none, some (mi, ct) => some (mi, ct, semContrib 0 sem k)
      | some _, some (mi, ct) =>
          some (mi, ct, ftsContrib 0 fts k + semContrib 0 sem k) := by
  unfold combinedMap
  match hf : ftsFirstSnippet fts k, hs : semLastData sem k with
  | none, none =>
      rw [semFold_of_not_mem sem 0 _ k hs, ftsFold_of_not_mem fts 0 _ k hf]
  | some snip, none =>
      rw [semFold_of_not_mem sem 0 _ k hs, ftsFold_char fts 0 _ k snip hf]
  | none, some (mi, ct) =>
      rw [semFold_char sem 0 _ k mi ct hs, ftsFold_of_not_mem fts 0 _ k hf]
  | some snip, some (mi, ct) =>
      rw [semFold_char sem 0 _ k mi ct hs, ftsFold_char fts 0 _ k snip hf]

/-- C2 (amended): for all candidate lists, limit and HashMap iteration
order with pairwise distinct keys, the fusion of search_hybrid returns at
most limit results, each conversation at most once, sorted by score
descending; each result carries the entry of the combined map at its
conversation: the message_id and chunk_text of the last semantic
candidate for that conversation whenever the semantic side contributes
(the snippet of the first FTS candidate with empty message_id otherwise),
and the score is the sum of the reciprocal-rank contributions
1 / (60 + rank) of both sides. On tied scores the output keeps the
iteration order of the HashMap, which is not specified, so tie order is
not the conversation-id order and may differ between runs. -/
theorem C2_search_hybrid_fusion (fts : List FtsResult) (sem : List SemanticSearchResult)
    (limit : Nat) (order : List String) (hnodup : order.Nodup) :
    (search_hybrid_fuse fts sem limit order).length ≤ limit ∧
    ((search_hybrid_fuse fts sem limit order).map (fun r => r.conversation_id)).Nodup ∧
    List.Sorted hybridGE (search_hybrid_fuse fts sem limit order) ∧
    (∀ r ∈ search_hybrid_fuse fts sem limit order,
      combinedMap fts sem r.conversation_id = some (r.message_id, r.chunk_text, r.score)) ∧
    (∀ r ∈ search_hybrid_fuse fts sem limit order, ∀ mi ct,
      semLastData sem r.conversation_id = some (mi, ct) →
      r.message_id = mi ∧ r.chunk_text = ct ∧
        r.score = ftsContrib 0 fts r.conversation_id +
          semContrib 0 sem r.conversation_id) ∧
    (∀ r ∈ search_hybrid_fuse fts sem limit order, ∀ snip,
      semLastData sem r.conversation_id = none →
      ftsFirstSnippet fts r.conversation_id = some snip →
      r.message_id = "" ∧ r.chunk_text = snip ∧
        r.score = ftsContrib 0 fts r.conversation_id) := by
  have hmem : ∀ r ∈ search_hybrid_fuse fts sem limit order,
      combinedMap fts sem r.conversation_id =
        some (r.message_id, r.chunk_text, r.score) := by
    intro r hr
    unfold search_hybrid_fuse at hr
    have h1 : r ∈ List.insertionSort hybridGE
        (order.filterMap (fun k => (combinedMap fts sem k).map (fun d =>
          (⟨k, d.1, d.2.1, d.2.2⟩ : SemanticSearchResult)))) :=
      List.mem_of_mem_take hr
    have h2 := (List.perm_insertionSort hybridGE _).subset h1
    obtain ⟨k, _, hk⟩ := List.mem_filterMap.mp h2
    obtain ⟨d, hd, hrd⟩ := Option.map_eq_some'.mp hk
    obtain ⟨a, b, sc⟩ := d
    cases hrd
    exact hd
  refine ⟨?_, ?_, ?_, hmem, ?_, ?_⟩
  · exact List.length_take_le _ _
  · have hconv : (order.filterMap (fun k => (combinedMap fts sem k).map (fun d =>
        (⟨k, d.1, d.2.1, d.2.2⟩ : SemanticSearchResult)))).map
          (fun r => r.conversation_id) =
        order.filter (fun k => (combinedMap fts sem k).isSome) := by
      clear hmem hnodup
      induction order with
      | nil => rfl
      | cons k rest ih =>
          cases hk : combinedMap fts sem k with
          | none =>
              rw [List.filterMap_cons_none (by rw [hk]; rfl),
                List.filter_cons_of_neg (by simp [hk])]
              exact ih
          | some d =>
              obtain ⟨a, b, sc⟩ := d
              rw [List.filterMap_cons_some (by rw [hk]; rfl),
                List.filter_cons_of_pos (by simp [hk])]
              simpa using ih
    unfold search_hybrid_fuse
    apply List.Nodup.sublist (List.Sublist.map _ (List.take_sublist _ _))
    rw [((List.perm_insertionSort hybridGE _).map (fun r => r.conversation_id)).nodup_iff,
      hconv]
    exact hnodup.filter _
  · unfold search_hybrid_fuse
    exact List.Pairwise.sublist (List.take_sublist _ _)
      (List.sorted_insertionSort hybridGE _)
  · intro r hr mi ct hsem
    have hD := hmem r hr
    rw [combinedMap_char, hsem] at hD
    cases hf : ftsFirstSnippet fts r.conversation_id with
    | none =>
        rw [hf] at hD
        injection hD with hD2
        injection hD2 with h1 hD3
        injection hD3 with h2 h3
        rw [ftsContrib_of_not_mem fts 0 _ hf, zero_add]
        exact ⟨h1.symm, h2.symm, h3.symm⟩
    | some snip =>
        rw [hf] at hD
        injection hD with hD2
        injection hD2 with h1 hD3
        injection hD3 with h2 h3
        exact ⟨h1.symm, h2.symm, h3.symm⟩
  · intro r hr snip hsem hf
    have hD := hmem r hr
    rw [combinedMap_char, hsem, hf] at hD
    injection hD with hD2
    injection hD2 with h1 hD3
    injection hD3 with h2 h3
    exact ⟨h1.symm, h2.symm, h3.symm⟩

/-- The FTS candidates of the tie scenario. -/
def exFts : List FtsResult := [⟨"a", "sa"⟩, ⟨"b", "sb"⟩]

/-- The semantic candidates of the tie scenario: the two conversations
appear in opposite rank order, so both end with the same fused score
1/60 + 1/61. -/
def exSem : List SemanticSearchResult :=
  [⟨"b", "mb", "tb", 1 / 10⟩, ⟨"a", "ma", "ta", 3 / 10⟩]

/-- C2, counterexample: the fused scores of conversations a and b are
exactly tied, and the output order on the tie is the HashMap iteration
order: the iteration order b, a yields the output b, a although the
conversation-id tie-break required a, b, and the two admissible iteration
orders yield different outputs, so fixed inputs do not determine the
result. -/
theorem C2_tie_order_counterexample :
    search_hybrid_fuse exFts exSem 3 ["b", "a"] ≠
      search_hybrid_fuse exFts exSem 3 ["a", "b"] ∧
    (search_hybrid_fuse exFts exSem 3 ["b", "a"]).map (fun r => r.conversation_id) =
      ["b", "a"] ∧
    (search_hybrid_fuse exFts exSem 3 ["b", "a"]).map (fun r => r.score) =
      [1 / 60 + 1 / 61, 1 / 60 + 1 / 61] ∧
    (["b", "a"] : List String).Nodup ∧ (["a", "b"] : List String).Nodup ∧
    (["b", "a"] : List String).Perm ["a", "b"] := by
  have hb : combinedMap exFts exSem "b" = some ("mb", "tb", 121 / 3660) := by
    rw [combinedMap_char]
    have h1 : ftsFirstSnippet exFts "b" = some "sb" := by
      simp [ftsFirstSnippet, exFts]
    have h2 : semLastData exSem "b" = some ("mb", "tb") := by
      simp [semLastData, exSem]
    rw [h1, h2]
    have h3 : ftsContrib 0 exFts "b" + semContrib 0 exSem "b" = 121 / 3660 := by
      simp [ftsContrib, semContrib, exFts, exSem, rrfK]
      norm_num
    rw [h3]
  have ha : combinedMap exFts exSem "a" = some ("ma", "ta", 121 / 3660) := by
    rw [combinedMap_char]
    have h1 : ftsFirstSnippet exFts "a" = some "sa" := by
      simp [ftsFirstSnippet, exFts]
    have h2 : semLastData exSem "a" = some ("ma", "ta") := by
      simp [semLastData, exSem]
    rw [h1, h2]
    have h3 : ftsContrib 0 exFts "a" + semContrib 0 exSem "a" = 121 / 3660 := by
      simp [ftsContrib, semContrib, exFts, exSem, rrfK]
      norm_num
    rw [h3]
  have hBA : search_hybrid_fuse exFts exSem 3 ["b", "a"] =
      [⟨"b", "mb", "tb", 121 / 3660⟩, ⟨"a", "ma", "ta", 121 / 3660⟩] := by
    simp only [search_hybrid_fuse, List.filterMap_cons, List.filterMap_nil, hb, ha,
      Option.map_some']
    have hsort : List.insertionSort hybridGE
        [(⟨"b", "mb", "tb", 121 / 3660⟩ : SemanticSearchResult),
          ⟨"a", "ma", "ta", 121 / 3660⟩] =
        [⟨"b", "mb", "tb", 121 / 3660⟩, ⟨"a", "ma", "ta", 121 / 3660⟩] := by
      show List.orderedInsert hybridGE _ (List.orderedInsert hybridGE _ []) = _
      simp only [List.orderedInsert]
      rw [if_pos]
      exact le_refl _
    rw [hsort]
    rfl
  have hAB : search_hybrid_fuse exFts exSem 3 ["a", "b"] =
      [⟨"a", "ma", "ta", 121 / 3660⟩, ⟨"b", "mb", "tb", 121 / 3660⟩] := by
    simp only [search_hybrid_fuse, List.filterMap_cons, List.filterMap_nil, hb, ha,
      Option.map_some']
    have hsort : List.insertionSort hybridGE
        [(⟨"a", "ma", "ta", 121 / 3660⟩ : SemanticSearchResult),
          ⟨"b", "mb", "tb", 121 / 3660⟩] =
        [⟨"a", "ma", "ta", 121 / 3660⟩, ⟨"b", "mb", "tb", 121 / 3660⟩] := by
      show List.orderedInsert hybridGE _ (List.orderedInsert hybridGE _ []) = _
      simp only [List.orderedInsert]
      rw [if_pos]
      exact le_refl _
    rw [hsort]
    rfl
  refine ⟨?_, ?_, ?_, by decide, by decide, List.Perm.swap _ _ _⟩
  · rw [hBA, hAB]
    intro h
    have h2 := congrArg (List.map (fun r => r.conversation_id)) h
    simp only [List.map_cons, List.map_nil] at h2
    exact absurd h2 (by decide)
  · rw [hBA]
    rfl
  · rw [hBA]
    norm_num

/-- C2, witness: the fusion theorem applied to the concrete tie scenario
with the iteration order a, b. -/
theorem C2_search_hybrid_fusion_witness :
    (search_hybrid_fuse exFts exSem 3 ["a", "b"]).length ≤ 3 ∧
    List.Sorted hybridGE (search_hybrid_fuse exFts exSem 3 ["a", "b"]) := by
  have h := C2_search_hybrid_fusion exFts exSem 3 ["a", "b"] (by decide)
  exact ⟨h.1, h.2.2.1⟩

/-! ## Snippet extraction (duckdb.rs, DuckDbQuery::extract_snippet)

search_messages maps every matching row through extract_snippet. The
function projects the stored content JSON to plain text, lowercases text
and query, finds the query with str::find (a byte index), and slices the
original text with byte ranges pos - 40 and pos + query.len() + 40. Rust
string slicing panics when an index is not a character boundary, and the
code takes no care to round the context offsets to boundaries; the panic
is modelled as none. -/

/-- The plain-text projection of extract_snippet: serde-decode the content
JSON, take text for Text, code for Code, the space-joined text and code
parts for Mixed, and the raw JSON string for the other variants or on
parse failure. -/
def projectContent (j : Json) : String :=
  match decodeContent j with
  | some (.Text text) => text
  | some (.Code _ code) => code
  | some (.Mixed parts) =>
      String.intercalate " " (parts.filterMap (fun p =>
        match p with
        | .Text text => some text
        | .Code _ code => some code
        | _ => none))
  | some _ => printJson j
  | none => printJson j

/-- Charwise lowercasing. Rust String::to_lowercase applies the full
Unicode mapping; the charwise ASCII map below agrees with it on ASCII
characters and on characters that lowercasing fixes, which covers every
input considered in this development. -/
def lowerStr (cs : List Char) : List Char := cs.map Char.toLower

/-- Rust str::find of a string pattern: the byte offset of the first
occurrence. In valid UTF-8 a match can only start at a character boundary,
so this character-level scan returns exactly the byte index of the code. -/
def findSub (needle : List Char) : List Char → Option Nat
  | [] => if needle.isEmpty then some 0 else none
  | c :: rest =>
      if needle.isPrefixOf (c :: rest) then some 0
      else (findSub needle rest).map (fun k => c.utf8Size + k)

/-- Rust str::is_char_boundary at byte index i (true at the total byte
length, false past it). -/
def isCharBoundary (cs : List Char) (i : Nat) : Bool :=
  floorCharBoundary cs i == i

/-- Rust byte-range slicing text[s..e]: the slice when both offsets are
character boundaries in range, none for the slicing panic. -/
def sliceRange (cs : List Char) (s e : Nat) : Option (List Char) :=
  if s ≤ e ∧ isCharBoundary cs s = true ∧ isCharBoundary cs e = true then
    some (sliceBytes cs s e)
  else none

/-- DuckDbQuery::extract_snippet with the byte arithmetic of the code:
pos is the byte index of the lowercased match, the context window is
pos - 40 to min of pos + query.len() + 40 and text.len() in bytes, and
the two Rust slices are the checked sliceRange, so a context offset that
falls inside a multi-byte character surfaces as none (the panic). -/
def extract_snippet (j : Json) (query : List Char) : Option (List Char) :=
  let text := (projectContent j).data
  match findSub (lowerStr query) (lowerStr text) with
  | some pos =>
      let start := pos - 40
      let endB := min (pos + byteLen query + 40) (byteLen text)
      (sliceRange text start endB).map (fun mid =>
        (if 0 < start then ("...".data) else []) ++ mid ++
          (if endB < byteLen text then ("...".data) else []))
  | none =>
      if 80 < byteLen text then
        (sliceRange text 0 80).map (fun pre => pre ++ ("...".data))
      else some text

/-- A stored Text content whose text is fourteen three-byte euro signs
followed by the query word. -/
def exSnippetText : String := String.mk (List.replicate 14 '€' ++ ("test".data))

/-- The content JSON of the stored message, exactly as write_conversation
serializes a Text variant. -/
def exSnippetJson : Json :=
  Json.obj [("type", Json.str "text"), ("text", Json.str exSnippetText)]

/-- C7 is false on multi-byte text: searching the word test in a Text
message of fourteen euro signs followed by test finds the match at byte
42, the 40-byte context start 2 falls inside the first three-byte
character, and the slice panics (none) instead of returning a snippet; on
plain ASCII text the same extraction succeeds, so the failure is exactly
the byte-index context arithmetic. The snippet window is 40 bytes, not 40
characters, and extraction does fail on multi-byte UTF-8. -/
theorem C7_snippet_multibyte_panics :
    extract_snippet exSnippetJson ("test".data) = none ∧
    findSub (lowerStr ("test".data)) (lowerStr exSnippetText.data) = some 42 ∧
    isCharBoundary exSnippetText.data 2 = false ∧
    extract_snippet
      (Json.obj [("type", Json.str "text"), ("text", Json.str "hello test world")])
      ("test".data) = some ("hello test world".data) := by
  decide

end Quaid
